import Mathlib

/-!
Verification of the connected-component labeling engine of
`cupyx/scipy/ndimage/measurements.py`.

The Python source launches element-wise CUDA kernels over a flat working
buffer `y` (one `int32` entry per field cell).  We embed the pipeline as pure
Lean functions over `Nat → Int` states: each kernel pass is serialised, and
the connect phase is parameterised by an explicit schedule of atomic union
events so that theorems can quantify over processing orders.
-/

namespace CupyLabel

/-- All offset vectors of `{-1,0,1}^r` in row-major (C) order of the
structuring-element array, already shifted by `-1` from array coordinates.
`numpy.where(structure != 0)` enumerates active flat indices in exactly this
order, and `vecs[dm] = elems[dm] - 1` shifts them (measurements.py lines
92-93). -/
def ternaryVectors : Nat → List (List Int)
  | 0 => [[]]
  | r + 1 => ([-1, 0, 1] : List Int).flatMap
      (fun c => (ternaryVectors r).map (fun v => c :: v))

/-- The offset vectors of the structuring element's active cells, in flat
row-major order.  `s` is the structuring element flattened in C order and
coerced to booleans (`numpy.array(structure, dtype=bool)`). -/
def activeOffsets (s : List Bool) (r : Nat) : List (List Int) :=
  ((ternaryVectors r).zip s).filterMap (fun p => if p.2 then some p.1 else none)

/-- The left-folded base-3 encoding of an offset vector:
`offset = vecs[0]; for dm in 1..: offset = offset*3 + vecs[dm]`
(measurements.py lines 94-96). -/
def enc (v : List Int) : Int := v.foldl (fun a b => 3 * a + b) 0

/-- The deduplicated directed offsets kept by `_label`:
`indxs = numpy.where(offset < 0)[0]` (measurements.py lines 97-98). -/
def dirsOf (s : List Bool) (r : Nat) : List (List Int) :=
  (activeOffsets s r).filter (fun v => decide (enc v < 0))

/-- The per-axis neighbor computation of `_kernel_connect` (lines 127-139),
written over the reversed `(shape[dm], dirs[dm])` pairs since the CUDA loop
runs `dm` from `ndim-1` down to `0`.  Arguments: remaining dims, `rest`,
`stride`, accumulated `k`.  `none` models the `k = -1; break` path. -/
def neighborGo : List (Nat × Int) → Nat → Nat → Nat → Option Nat
  | [], _, _, k => some k
  | (s, d) :: dims, rest, stride, k =>
      let pos : Int := ((rest % s : Nat) : Int) + d
      if pos < 0 ∨ (s : Int) ≤ pos then none
      else neighborGo dims (rest / s) (stride * s) (k + pos.toNat * stride)

/-- Flat index of the cell reached from flat index `i` by offset vector `d`,
or `none` if any axis runs out of bounds. -/
def neighbor (shape : List Nat) (d : List Int) (i : Nat) : Option Nat :=
  neighborGo ((shape.zip d).reverse) i 1 0

/-- Accumulator-free form of the neighbor computation: the mixed-radix
digit rewrite of `_kernel_connect`, processed fastest axis first. -/
def pureNeighbor : List (Nat × Int) → Nat → Option Nat
  | [], _ => some 0
  | (s, d) :: dims, rest =>
      let pos : Int := ((rest % s : Nat) : Int) + d
      if pos < 0 ∨ (s : Int) ≤ pos then none
      else (pureNeighbor dims (rest / s)).map (fun m => pos.toNat + s * m)

/-- Negating the displacement of every axis. -/
def negDims (dims : List (Nat × Int)) : List (Nat × Int) :=
  dims.map (fun p => (p.1, -p.2))

/-- The cell count spanned by a dimension list. -/
def prodDims (dims : List (Nat × Int)) : Nat := (dims.map Prod.fst).prod

/-- `_kernel_init` (lines 113-116): `if (x == 0) { y = -1; } else { y = i; }`.
Cells beyond the field data are inactive (`List.getD` default 0). -/
def initY (x : List Int) : Nat → Int :=
  fun i => if x.getD i 0 = 0 then -1 else (i : Int)

/-- Pointwise update of a working buffer. -/
def upd (y : Nat → Int) (i : Nat) (v : Int) : Nat → Int :=
  fun j => if j = i then v else y j

/-- Fuel-bounded root chase `while (j != y[j]) { j = y[j]; }`. -/
def findRoot (y : Nat → Int) : Nat → Nat → Nat
  | 0, j => j
  | fuel + 1, j => if y j = (j : Int) then j else findRoot y fuel (y j).toNat

/-- The root of `j`: under the substrate invariant parents strictly decrease,
so fuel `j + 1` always suffices. -/
def rootOf (y : Nat → Int) (j : Nat) : Nat := findRoot y (j + 1) j

/-- One committed union of the trees of `a` and `b` (lines 142-156): find both
roots; if distinct, the compare-and-swap attaches the larger-indexed root
under the smaller-indexed one. -/
def unionStep (y : Nat → Int) (a b : Nat) : Nat → Int :=
  let ra := rootOf y a
  let rb := rootOf y b
  if ra = rb then y
  else if ra < rb then upd y rb ra
  else upd y ra rb

/-- One connect-phase event: cell `e.1` processes direction `e.2`
(lines 124-156): skip inactive cells, out-of-bounds neighbors and inactive
neighbors, otherwise union. -/
def connectEvent (shape : List Nat) (y : Nat → Int) (e : Nat × List Int) :
    Nat → Int :=
  if y e.1 < 0 then y
  else
    match neighbor shape e.2 e.1 with
    | none => y
    | some k => if y k < 0 then y else unionStep y e.1 k

/-- The connect phase, run over an explicit schedule of union events. -/
def connectPhase (shape : List Nat) (y : Nat → Int)
    (es : List (Nat × List Int)) : Nat → Int :=
  es.foldl (connectEvent shape) y

/-- The canonical sequential schedule: cells ascending, directions in `dirs`
order, one event per (cell, direction) pair. -/
def seqSchedule (n : Nat) (dirs : List (List Int)) : List (Nat × List Int) :=
  (List.range n).flatMap (fun i => dirs.map (fun d => (i, d)))

/-- A schedule is admissible and covering when every event's direction is one
of the compiled offsets and every (cell, direction) pair is processed at
least once (repeats model CAS retries). -/
def covers (n : Nat) (dirs : List (List Int))
    (es : List (Nat × List Int)) : Prop :=
  (∀ e ∈ es, e.2 ∈ dirs) ∧ ∀ i, i < n → ∀ d ∈ dirs, (i, d) ∈ es

instance (n : Nat) (dirs : List (List Int)) (es : List (Nat × List Int)) :
    Decidable (covers n dirs es) := by
  unfold covers
  infer_instance

/-- One step of `_kernel_count` (lines 162-172) at cell `i`: skip inactive,
else resolve the root; non-roots are path-compressed, roots bump the
counter. -/
def countStep (p : (Nat → Int) × Nat) (i : Nat) : (Nat → Int) × Nat :=
  if p.1 i < 0 then p
  else
    let j := rootOf p.1 i
    if j = i then (p.1, p.2 + 1) else (upd p.1 i (j : Int), p.2)

/-- `_kernel_count` over all cells. -/
def countPhase (y : Nat → Int) (n : Nat) : (Nat → Int) × Nat :=
  (List.range n).foldl countStep (y, 0)

/-- `_kernel_labels` collects the self-rooted indices (in nondeterministic
order) and `_label` sorts them ascending (line 109); the composite equals the
ascending enumeration of self-rooted cells. -/
def labelsList (y : Nat → Int) (n : Nat) : List Nat :=
  (List.range n).filter (fun i => decide (y i = (i : Int)))

/-- The binary-search loop of `_kernel_finalize` (lines 198-203), with the C
truncated midpoint `(j_min + j_max) / 2` (`Int.tdiv` truncates toward zero
exactly like C's `/` on `int`; `Int.tdiv`). -/
def bsearchLoop (L : List Int) (yi : Int) :
    Nat → Int → Int → Int → Int
  | 0, _, _, j => j
  | fuel + 1, jmin, jmax, j =>
      if jmin < jmax then
        if yi = L.getD j.toNat 0 then j
        else if yi < L.getD j.toNat 0 then
          bsearchLoop L yi fuel jmin (j - 1) (Int.tdiv (jmin + (j - 1)) 2)
        else
          bsearchLoop L yi fuel (j + 1) jmax (Int.tdiv ((j + 1) + jmax) 2)
      else j

/-- Full binary search of `_kernel_finalize` (lines 194-203): initial bounds
`j_min = 0`, `j_max = maxlabel - 1`, initial midpoint before the loop. -/
def bsearch (L : List Int) (yi : Int) (maxlabel : Nat) : Int :=
  bsearchLoop L yi (maxlabel + 1) 0 ((maxlabel : Int) - 1)
    (Int.tdiv (0 + ((maxlabel : Int) - 1)) 2)

/-- `_kernel_finalize` at a single cell (lines 190-204). -/
def finalizeCell (L : List Int) (maxlabel : Nat) (yv : Int) : Int :=
  if yv < 0 then 0 else bsearch L yv maxlabel + 1

/-- `_kernel_finalize` over all cells, materialised as the output list. -/
def finalizePhase (y : Nat → Int) (L : List Int) (maxlabel n : Nat) :
    List Int :=
  (List.range n).map (fun i => finalizeCell L maxlabel (y i))

/-- `_label` (lines 91-110) with the connect phase run over schedule `es`:
init, connect, count, collect-and-sort labels, finalize.  Returns the flat
output array and `maxlabel`. -/
def labelCore (x : List Int) (shape : List Nat)
    (es : List (Nat × List Int)) : List Int × Nat :=
  let n := shape.prod
  let y1 := connectPhase shape (initY x) es
  let p := countPhase y1 n
  let L := (labelsList p.1 n).map Int.ofNat
  (finalizePhase p.1 L p.2 n, p.2)

/-- `_label` with the sequential schedule (one pass over cells ascending,
directions in compiled order), the serialisation of the kernel launch. -/
def labelSeq (x : List Int) (shape : List Nat) (s : List Bool) :
    List Int × Nat :=
  labelCore x shape (seqSchedule shape.prod (dirsOf s shape.length))

/-- `_generate_binary_structure rank 1` (lines 81-88): cell with offset `v`
is active iff the L1 norm of `v` is at most 1 (face connectivity); for rank 0
the scalar `True`.  Returned as (shape, flat row-major values). -/
def genStructure (r : Nat) : List Nat × List Bool :=
  (List.replicate r 3,
   (ternaryVectors r).map (fun v => decide ((v.map Int.natAbs).sum ≤ 1)))

/-- The validation errors of `label` (lines 33-50): complex field dtype,
structure/field rank disagreement, structure axis not 3 or caller-provided
output of the wrong shape. -/
inductive LabelErr where
  | typeMismatch
  | rankMismatch
  | shapeMismatch
  deriving DecidableEq, Repr

/-- Abstraction of the arguments reaching `label`: whether the field dtype is
complex, the field's shape and flat (row-major) data, the optional structure
as (shape, flat boolean values), and the shape of a caller-provided output
array if any. -/
structure LabelInput where
  isComplex : Bool
  shape : List Nat
  data : List Int
  struct? : Option (List Nat × List Bool)
  outShape? : Option (List Nat)

/-- The entry point `label` (lines 10-78): validation in source order, then
the empty-array, zero-rank, and general branches.  `.error` models a raised
exception (so nothing is computed); `.ok` carries the flat output array and
the feature count. -/
def labelTop (inp : LabelInput) : Except LabelErr (List Int × Nat) :=
  if inp.isComplex then .error .typeMismatch
  else
    let st := inp.struct?.getD (genStructure inp.shape.length)
    if st.1.length ≠ inp.shape.length then .error .rankMismatch
    else if ¬ st.1.all (fun a => decide (a = 3)) then .error .shapeMismatch
    else if inp.outShape?.getD inp.shape ≠ inp.shape then .error .shapeMismatch
    else if inp.shape.prod = 0 then .ok ([], 0)
    else if inp.shape.length = 0 then
      let m : Nat := if inp.data.getD 0 0 = 0 then 0 else 1
      .ok ([(m : Int)], m)
    else .ok (labelSeq inp.data inp.shape st.2)

/-! ### Specification-side relations -/

/-- A cell is active when its field value is nonzero (`x == 0` is the
inactivity test of `_kernel_init`); indices beyond the data are inactive. -/
def isActive (x : List Int) (i : Nat) : Prop := x.getD i 0 ≠ 0

instance (x : List Int) (i : Nat) : Decidable (isActive x i) := by
  unfold isActive; infer_instance

/-- The union edges actually attempted by the connect phase: both endpoints
active and the neighbor reached by one of the compiled (deduplicated)
offsets. -/
def edgeRel (x : List Int) (shape : List Nat) (dirs : List (List Int))
    (i k : Nat) : Prop :=
  isActive x i ∧ isActive x k ∧ ∃ d ∈ dirs, neighbor shape d i = some k

/-- Connectivity: the equivalence closure of the attempted union edges. -/
def connG (x : List Int) (shape : List Nat) (dirs : List (List Int)) :
    Nat → Nat → Prop :=
  Relation.EqvGen (edgeRel x shape dirs)

/-- One step of the specification's chain: an offset that is an active entry
of the structuring element, taken between active cells. -/
def stepRel (x : List Int) (shape : List Nat) (offs : List (List Int))
    (p q : Nat) : Prop :=
  isActive x p ∧ isActive x q ∧ ∃ v ∈ offs, neighbor shape v p = some q

/-- The specification's chain relation: a path of active cells in which every
consecutive step is an offset drawn from the structuring element's active
entries. -/
def chainRel (x : List Int) (shape : List Nat) (offs : List (List Int))
    (p q : Nat) : Prop :=
  Relation.ReflTransGen (stepRel x shape offs) p q

/-- Centrosymmetry of a flat row-major structuring element: the flat array is
a palindrome (flat position `3^r - 1 - idx` holds the negated offset of flat
position `idx`). -/
def centrosym (s : List Bool) : Prop := s.reverse = s

instance (s : List Bool) : Decidable (centrosym s) := by
  unfold centrosym
  infer_instance


/-- The ascending list of final roots of the converged buffer: exactly the
cells collected by `_kernel_labels` after `_kernel_count` has resolved every
entry. -/
def rootsList (x : List Int) (y : Nat → Int) (n : Nat) : List Nat :=
  (List.range n).filter (fun i => decide (isActive x i ∧ rootOf y i = i))

/-- The invariant claimed by the spec for the working buffer: every entry is
`-1` or a valid parent pointer no larger than its own index. -/
def SimpleInv (y : Nat → Int) : Prop :=
  ∀ i, y i = -1 ∨ (0 ≤ y i ∧ y i ≤ (i : Int))

/-- The full working-buffer invariant of the connect phase: inactive cells
hold `-1`; active cells hold a nonnegative parent pointer that does not
exceed their own index, points at an active cell, and stays inside the
cell's connectivity class. -/
structure Inv (x : List Int) (shape : List Nat) (dirs : List (List Int))
    (y : Nat → Int) : Prop where
  inact : ∀ i, ¬ isActive x i → y i = -1
  act_nonneg : ∀ i, isActive x i → 0 ≤ y i
  act_le : ∀ i, isActive x i → (y i).toNat ≤ i
  act_act : ∀ i, isActive x i → isActive x (y i).toNat
  conn : ∀ i, isActive x i → connG x shape dirs i (y i).toNat


end CupyLabel

namespace CupyLabel

/-! ### Offset compiler lemmas (for claim C2) -/

/-- Generalised accumulator form of the left fold computing `enc`. -/
theorem foldl_enc_eq (v : List Int) :
    ∀ a : Int, v.foldl (fun x b => 3 * x + b) a = a * 3 ^ v.length + enc v := by
  induction v with
  | nil => intro a; simp [enc]
  | cons c w ih =>
      intro a
      have hw : enc (c :: w) = c * 3 ^ w.length + enc w := by
        show w.foldl (fun x b => 3 * x + b) (3 * 0 + c) = _
        rw [ih (3 * 0 + c)]; ring
      show w.foldl (fun x b => 3 * x + b) (3 * a + c) = _
      rw [ih (3 * a + c), hw, List.length_cons]
      ring

theorem enc_cons (c : Int) (w : List Int) :
    enc (c :: w) = c * 3 ^ w.length + enc w := by
  show w.foldl (fun x b => 3 * x + b) (3 * 0 + c) = _
  rw [foldl_enc_eq w (3 * 0 + c)]; ring

/-- Balanced-ternary magnitude bound for vectors over `{-1,0,1}`. -/
theorem enc_abs_bound (v : List Int) (hb : ∀ c ∈ v, c = -1 ∨ c = 0 ∨ c = 1) :
    2 * |enc v| + 1 ≤ 3 ^ v.length := by
  induction v with
  | nil => simp [enc]
  | cons c w ih =>
      have hc : |c| ≤ 1 := by
        rcases hb c (List.mem_cons_self c w) with h | h | h <;> simp [h]
      have ihw := ih (fun d hd => hb d (List.mem_cons_of_mem _ hd))
      have hpow : (0 : Int) < 3 ^ w.length := by positivity
      have habs : |enc (c :: w)| ≤ |c| * 3 ^ w.length + |enc w| := by
        rw [enc_cons]
        calc |c * 3 ^ w.length + enc w| ≤ |c * 3 ^ w.length| + |enc w| := abs_add _ _
          _ = |c| * 3 ^ w.length + |enc w| := by
              rw [abs_mul, abs_of_pos hpow]
      rw [List.length_cons, pow_succ]
      nlinarith [abs_nonneg (enc w), abs_nonneg c]

/-- `enc` negates with the vector. -/
theorem enc_neg (v : List Int) :
    enc (v.map (fun c => -c)) = - enc v := by
  induction v with
  | nil => simp [enc]
  | cons c w ih =>
      rw [List.map_cons, enc_cons, enc_cons, ih, List.length_map]
      ring

/-- Over `{-1,0,1}` vectors, only the all-zero vector encodes to 0. -/
theorem enc_eq_zero (v : List Int) (hb : ∀ c ∈ v, c = -1 ∨ c = 0 ∨ c = 1)
    (h0 : enc v = 0) : v = List.replicate v.length 0 := by
  induction v with
  | nil => simp
  | cons c w ih =>
      have hcw := enc_cons c w
      have hbw : ∀ d ∈ w, d = -1 ∨ d = 0 ∨ d = 1 :=
        fun d hd => hb d (List.mem_cons_of_mem _ hd)
      have hbound := enc_abs_bound w hbw
      have hpow : (0 : Int) < 3 ^ w.length := by positivity
      have hc0 : c = 0 := by
        rcases hb c (List.mem_cons_self c w) with h | h | h
        · exfalso
          rw [h0, h] at hcw
          have hw : enc w = 3 ^ w.length := by linarith
          have := le_abs_self (enc w)
          linarith
        · exact h
        · exfalso
          rw [h0, h] at hcw
          have hw : enc w = - 3 ^ w.length := by linarith
          have := neg_abs_le (enc w)
          linarith
      have hw0 : enc w = 0 := by rw [h0, hc0] at hcw; linarith
      rw [List.length_cons, List.replicate_succ, hc0, ih hbw hw0]
      simp

theorem ternaryVectors_succ (r : Nat) :
    ternaryVectors (r + 1) = ([-1, 0, 1] : List Int).flatMap
      (fun c => (ternaryVectors r).map (fun v => c :: v)) := rfl

theorem length_ternaryVectors (r : Nat) : (ternaryVectors r).length = 3 ^ r := by
  induction r with
  | zero => rfl
  | succ r ih =>
      rw [ternaryVectors_succ]
      simp [List.flatMap_cons, ih, pow_succ]
      ring

theorem mem_ternaryVectors {r : Nat} {v : List Int} (h : v ∈ ternaryVectors r) :
    v.length = r ∧ ∀ c ∈ v, c = -1 ∨ c = 0 ∨ c = 1 := by
  induction r generalizing v with
  | zero =>
      simp only [ternaryVectors, List.mem_singleton] at h
      subst h; simp
  | succ r ih =>
      rw [ternaryVectors_succ] at h
      simp only [List.mem_flatMap, List.mem_map] at h
      obtain ⟨c, hc, w, hw, rfl⟩ := h
      obtain ⟨hlen, hcomps⟩ := ih hw
      refine ⟨by simp [hlen], ?_⟩
      intro d hd
      rcases List.mem_cons.1 hd with rfl | hdw
      · simpa using hc
      · exact hcomps d hdw

theorem ternaryVectors_reverse (r : Nat) :
    (ternaryVectors r).reverse
      = (ternaryVectors r).map (fun v => v.map (fun c => -c)) := by
  induction r with
  | zero => rfl
  | succ r ih =>
      rw [ternaryVectors_succ]
      simp only [List.flatMap_cons, List.flatMap_nil, List.append_nil,
        List.reverse_append, ← List.map_reverse, ih, List.map_map,
        List.map_append]
      rw [List.append_assoc]
      simp [Function.comp_def]

theorem nodup_ternaryVectors (r : Nat) : (ternaryVectors r).Nodup := by
  induction r with
  | zero => simp [ternaryVectors]
  | succ r ih =>
      have hinj : ∀ c : Int, ((ternaryVectors r).map (fun v => c :: v)).Nodup :=
        fun c => ih.map (fun a b h => by injection h)
      have hdisj : ∀ c c' : Int, c ≠ c' →
          ∀ u ∈ (ternaryVectors r).map (fun v => c :: v),
            u ∉ (ternaryVectors r).map (fun v => c' :: v) := by
        intro c c' hne u hu hu'
        simp only [List.mem_map] at hu hu'
        obtain ⟨v, _, rfl⟩ := hu
        obtain ⟨w, _, h⟩ := hu'
        injection h with h1 h2
        exact hne h1.symm
      rw [ternaryVectors_succ]
      simp only [List.flatMap_cons, List.flatMap_nil, List.append_nil]
      rw [List.nodup_append, List.nodup_append]
      refine ⟨hinj _, ⟨hinj _, hinj _, ?_⟩, ?_⟩
      · intro u hu hu'
        exact hdisj 0 1 (by decide) u hu hu'
      · intro u hu hu'
        rcases List.mem_append.1 hu' with h | h
        · exact hdisj (-1) 0 (by decide) u hu h
        · exact hdisj (-1) 1 (by decide) u hu h

end CupyLabel

namespace CupyLabel

/-- The filtered zip used by the offset compiler is a sublist of the vector
enumeration. -/
theorem zip_sel_sublist :
    ∀ (l₁ : List (List Int)) (l₂ : List Bool),
      List.Sublist ((l₁.zip l₂).filterMap (fun p => if p.2 then some p.1 else none)) l₁ := by
  intro l₁
  induction l₁ with
  | nil => intro l₂; simp
  | cons a l ih =>
      intro l₂
      cases l₂ with
      | nil => simp
      | cons b l₂ =>
          rw [List.zip_cons_cons, List.filterMap_cons]
          cases b with
          | false => exact (ih l₂).cons a
          | true => exact (ih l₂).cons₂ a

theorem activeOffsets_sublist (s : List Bool) (r : Nat) :
    List.Sublist (activeOffsets s r) (ternaryVectors r) :=
  zip_sel_sublist _ _

theorem mem_of_mem_activeOffsets {s : List Bool} {r : Nat} {v : List Int}
    (h : v ∈ activeOffsets s r) : v ∈ ternaryVectors r :=
  (activeOffsets_sublist s r).subset h

theorem nodup_dirsOf (s : List Bool) (r : Nat) : (dirsOf s r).Nodup :=
  ((List.filter_sublist _).trans (activeOffsets_sublist s r)).nodup
    (nodup_ternaryVectors r)

/-- Reversing equal-length lists commutes with `zip`. -/
theorem zip_reverse_eq {α β : Type} :
    ∀ (l₁ : List α) (l₂ : List β), l₁.length = l₂.length →
      (l₁.reverse).zip (l₂.reverse) = (l₁.zip l₂).reverse := by
  intro l₁
  induction l₁ with
  | nil => intro l₂ h; simp
  | cons x xs ih =>
      intro l₂ h
      cases l₂ with
      | nil => simp at h
      | cons y ys =>
          have hlen : xs.length = ys.length := by simpa using h
          have hlen' : xs.reverse.length = ys.reverse.length := by
            simpa using hlen
          simp only [List.reverse_cons]
          rw [List.zip_append hlen', ih ys hlen]
          simp

/-- Reversing the flat structuring element negates every compiled offset. -/
theorem activeOffsets_reverse (s : List Bool) (r : Nat)
    (hs : s.length = 3 ^ r) :
    (activeOffsets s r).reverse
      = (activeOffsets s.reverse r).map (fun v => v.map (fun c => -c)) := by
  unfold activeOffsets
  rw [← List.filterMap_reverse,
    ← zip_reverse_eq _ _ (by rw [length_ternaryVectors, hs]),
    ternaryVectors_reverse, List.zip_map_left, List.filterMap_map,
    List.map_filterMap]
  congr 1
  funext p
  rcases p with ⟨v, b⟩
  cases b <;> simp [Function.comp, Prod.map]

end CupyLabel

namespace CupyLabel

/-- For a centrosymmetric structuring element the active offsets are closed
under negation. -/
theorem mem_activeOffsets_neg {s : List Bool} {r : Nat} (hs : s.length = 3 ^ r)
    (hsym : centrosym s) {v : List Int} (hv : v ∈ activeOffsets s r) :
    v.map (fun c => -c) ∈ activeOffsets s r := by
  have h := activeOffsets_reverse s r hs
  rw [hsym] at h
  have hm : v.map (fun c => -c)
      ∈ (activeOffsets s r).map (fun w => w.map (fun c => -c)) :=
    List.mem_map_of_mem _ hv
  rw [← h] at hm
  exact List.mem_reverse.1 hm

theorem enc_replicate_zero (n : Nat) : enc (List.replicate n 0) = 0 := by
  induction n with
  | zero => rfl
  | succ n ih => rw [List.replicate_succ, enc_cons, ih]; ring

theorem mem_dirsOf {s : List Bool} {r : Nat} {v : List Int} :
    v ∈ dirsOf s r ↔ v ∈ activeOffsets s r ∧ enc v < 0 := by
  unfold dirsOf
  rw [List.mem_filter]
  simp

/-- C2: for every centrosymmetric structuring element, the `enc(v) < 0`
filter keeps exactly one direction of each unordered pair of active nonzero
offsets (membership iff of `v` and `-v` is exclusive), compiles no offset
twice, and never keeps the all-zero self-offset; so every undirected
structuring-element edge is visited exactly once. -/
theorem offset_dedup (s : List Bool) (r : Nat) (hs : s.length = 3 ^ r)
    (hsym : centrosym s) (v : List Int) (hv : v ∈ activeOffsets s r)
    (hnz : v ≠ List.replicate r 0) :
    (v ∈ dirsOf s r ↔ v.map (fun c => -c) ∉ dirsOf s r)
    ∧ (dirsOf s r).Nodup
    ∧ List.replicate r 0 ∉ dirsOf s r := by
  have hzero : List.replicate r 0 ∉ dirsOf s r := by
    intro hmem
    have h := (mem_dirsOf.1 hmem).2
    rw [enc_replicate_zero] at h
    exact absurd h (by norm_num)
  refine ⟨?_, nodup_dirsOf s r, hzero⟩
  obtain ⟨hlen, hcomp⟩ := mem_ternaryVectors (mem_of_mem_activeOffsets hv)
  have hencne : enc v ≠ 0 := by
    intro h
    exact hnz (by rw [← hlen]; exact enc_eq_zero v hcomp h)
  have hnegmem : v.map (fun c => -c) ∈ activeOffsets s r :=
    mem_activeOffsets_neg hs hsym hv
  rcases lt_or_gt_of_ne hencne with h | h
  · have hin : v ∈ dirsOf s r := mem_dirsOf.2 ⟨hv, h⟩
    have hout : v.map (fun c => -c) ∉ dirsOf s r := by
      intro hmem
      have h2 := (mem_dirsOf.1 hmem).2
      rw [enc_neg] at h2
      linarith
    exact ⟨fun _ => hout, fun _ => hin⟩
  · have hout : v ∉ dirsOf s r := by
      intro hmem
      have h2 := (mem_dirsOf.1 hmem).2
      linarith
    have hin : v.map (fun c => -c) ∈ dirsOf s r := by
      refine mem_dirsOf.2 ⟨hnegmem, ?_⟩
      rw [enc_neg]
      linarith
    exact ⟨fun hmem => absurd hmem hout, fun hno => absurd hin hno⟩

/-- Witness for C2 at the 1-D face-connectivity structuring element and the
offset `[-1]`. -/
theorem offset_dedup_witness :
    (([-1] : List Int) ∈ dirsOf [true, true, true] 1
        ↔ ([-1] : List Int).map (fun c => -c) ∉ dirsOf [true, true, true] 1)
    ∧ (dirsOf [true, true, true] 1).Nodup
    ∧ List.replicate 1 0 ∉ dirsOf [true, true, true] 1 :=
  offset_dedup [true, true, true] 1 (by decide) (by decide) [-1]
    (by decide) (by decide)

end CupyLabel

namespace CupyLabel

/-! ### Union-find substrate invariant and root-chase lemmas -/

/-- Active cells lie inside the data. -/
theorem isActive_lt {x : List Int} {i : Nat} (h : isActive x i) :
    i < x.length := by
  by_contra hge
  apply h
  show x.getD i 0 = 0
  rw [List.getD_eq_getElem?_getD, List.getElem?_eq_none (by omega)]
  rfl

theorem Inv_init (x : List Int) (shape : List Nat) (dirs : List (List Int)) :
    Inv x shape dirs (initY x) := by
  refine ⟨?_, ?_, ?_, ?_, ?_⟩ <;> intro i hi
  · simp only [initY]
    rw [if_pos (by simpa [isActive] using hi)]
  · simp only [initY]
    rw [if_neg (by simpa [isActive] using hi)]
    positivity
  · simp only [initY]
    rw [if_neg (by simpa [isActive] using hi)]
    simp
  · simp only [initY]
    rw [if_neg (by simpa [isActive] using hi)]
    simpa using hi
  · simp only [initY]
    rw [if_neg (by simpa [isActive] using hi)]
    simpa using Relation.EqvGen.refl (r := edgeRel x shape dirs) i

/-- For an active cell the parent entry is the cast of its `toNat`. -/
theorem yval_eq_toNat {x : List Int} {shape : List Nat}
    {dirs : List (List Int)} {y : Nat → Int} (hInv : Inv x shape dirs y)
    {i : Nat} (hi : isActive x i) : y i = ((y i).toNat : Int) :=
  (Int.toNat_of_nonneg (hInv.act_nonneg i hi)).symm

/-- With at least `j + 1` fuel the chase from an active cell lands on an
active self-rooted cell no larger than `j` and connected to `j`. -/
theorem findRoot_spec {x : List Int} {shape : List Nat}
    {dirs : List (List Int)} {y : Nat → Int} (hInv : Inv x shape dirs y) :
    ∀ fuel j, isActive x j → j < fuel →
      isActive x (findRoot y fuel j)
      ∧ y (findRoot y fuel j) = ((findRoot y fuel j : Nat) : Int)
      ∧ findRoot y fuel j ≤ j
      ∧ connG x shape dirs j (findRoot y fuel j) := by
  intro fuel
  induction fuel with
  | zero => intro j _ h; omega
  | succ fuel ih =>
      intro j hj hlt
      rw [findRoot]
      by_cases hself : y j = (j : Int)
      · rw [if_pos hself]
        exact ⟨hj, hself, le_refl j, Relation.EqvGen.refl j⟩
      · rw [if_neg hself]
        have hb : (y j).toNat < j := by
          have h1 := hInv.act_le j hj
          rcases Nat.lt_or_ge (y j).toNat j with h | h
          · exact h
          · exfalso
            apply hself
            rw [yval_eq_toNat hInv hj]
            omega
        have hact := hInv.act_act j hj
        obtain ⟨h1, h2, h3, h4⟩ := ih (y j).toNat hact (by omega)
        exact ⟨h1, h2, le_trans h3 (le_of_lt hb),
          Relation.EqvGen.trans _ _ _ (hInv.conn j hj) h4⟩

/-- The chase result does not depend on the fuel, as long as it exceeds the
starting index. -/
theorem findRoot_fuel {x : List Int} {shape : List Nat}
    {dirs : List (List Int)} {y : Nat → Int} (hInv : Inv x shape dirs y) :
    ∀ j, isActive x j → ∀ fuel, j < fuel → findRoot y fuel j = rootOf y j := by
  intro j
  induction j using Nat.strong_induction_on with
  | _ j ihs =>
      intro hj fuel hfuel
      match fuel, hfuel with
      | fuel + 1, hfuel =>
        rw [findRoot]
        show _ = findRoot y (j + 1) j
        rw [findRoot]
        by_cases hself : y j = (j : Int)
        · rw [if_pos hself, if_pos hself]
        · rw [if_neg hself, if_neg hself]
          have hb : (y j).toNat < j := by
            have h1 := hInv.act_le j hj
            rcases Nat.lt_or_ge (y j).toNat j with h | h
            · exact h
            · exfalso
              apply hself
              rw [yval_eq_toNat hInv hj]
              omega
          have hact := hInv.act_act j hj
          rw [ihs _ hb hact fuel (by omega), ihs _ hb hact j (by omega)]

theorem rootOf_spec {x : List Int} {shape : List Nat}
    {dirs : List (List Int)} {y : Nat → Int} (hInv : Inv x shape dirs y)
    {j : Nat} (hj : isActive x j) :
    isActive x (rootOf y j)
    ∧ y (rootOf y j) = ((rootOf y j : Nat) : Int)
    ∧ rootOf y j ≤ j
    ∧ connG x shape dirs j (rootOf y j) :=
  findRoot_spec hInv (j + 1) j hj (by omega)

/-- A self-rooted cell is its own chase result (no invariant needed). -/
theorem rootOf_root {y : Nat → Int} {j : Nat} (h : y j = (j : Int)) :
    rootOf y j = j := by
  unfold rootOf findRoot
  rw [if_pos h]

/-- Unfolding one chase step. -/
theorem rootOf_step {x : List Int} {shape : List Nat}
    {dirs : List (List Int)} {y : Nat → Int} (hInv : Inv x shape dirs y)
    {j : Nat} (hj : isActive x j) (hne : y j ≠ (j : Int)) :
    rootOf y j = rootOf y (y j).toNat := by
  have hb : (y j).toNat < j := by
    have h1 := hInv.act_le j hj
    rcases Nat.lt_or_ge (y j).toNat j with h | h
    · exact h
    · exfalso
      apply hne
      rw [yval_eq_toNat hInv hj]
      omega
  show findRoot y (j + 1) j = _
  rw [findRoot, if_neg hne]
  exact findRoot_fuel hInv _ (hInv.act_act j hj) j (by omega)

theorem rootOf_idem {x : List Int} {shape : List Nat}
    {dirs : List (List Int)} {y : Nat → Int} (hInv : Inv x shape dirs y)
    {j : Nat} (hj : isActive x j) :
    rootOf y (rootOf y j) = rootOf y j :=
  rootOf_root (rootOf_spec hInv hj).2.1

end CupyLabel

namespace CupyLabel

theorem upd_eq_self (y : Nat → Int) (i : Nat) (v : Int) : upd y i v i = v := by
  simp [upd]

theorem upd_ne (y : Nat → Int) (i : Nat) (v : Int) {j : Nat} (h : j ≠ i) :
    upd y i v j = y j := by
  simp [upd, h]

/-- Attaching root `t` under a smaller root `s` of the same component
preserves the substrate invariant. -/
theorem Inv_upd {x : List Int} {shape : List Nat} {dirs : List (List Int)}
    {y : Nat → Int} (hInv : Inv x shape dirs y) {s t : Nat}
    (hst : s < t) (has : isActive x s) (hat : isActive x t)
    (hconn : connG x shape dirs t s) :
    Inv x shape dirs (upd y t (s : Int)) := by
  refine ⟨?_, ?_, ?_, ?_, ?_⟩ <;> intro i hi
  · have hne : i ≠ t := fun h => hi (h ▸ hat)
    rw [upd_ne _ _ _ hne]
    exact hInv.inact i hi
  · by_cases hit : i = t
    · subst hit
      rw [upd_eq_self]
      exact Int.natCast_nonneg s
    · rw [upd_ne _ _ _ hit]
      exact hInv.act_nonneg i hi
  · by_cases hit : i = t
    · subst hit
      rw [upd_eq_self, Int.toNat_natCast]
      omega
    · rw [upd_ne _ _ _ hit]
      exact hInv.act_le i hi
  · by_cases hit : i = t
    · subst hit
      rw [upd_eq_self, Int.toNat_natCast]
      exact has
    · rw [upd_ne _ _ _ hit]
      exact hInv.act_act i hi
  · by_cases hit : i = t
    · subst hit
      rw [upd_eq_self, Int.toNat_natCast]
      exact hconn
    · rw [upd_ne _ _ _ hit]
      exact hInv.conn i hi

/-- The effect of one committed attachment on every chase result: exactly
the class of `t` is redirected to `s`. -/
theorem rootOf_upd {x : List Int} {shape : List Nat} {dirs : List (List Int)}
    {y : Nat → Int} (hInv : Inv x shape dirs y) {s t : Nat}
    (hs : y s = (s : Int)) (ht : y t = (t : Int)) (hst : s < t)
    (has : isActive x s) (hat : isActive x t)
    (hconn : connG x shape dirs t s) :
    ∀ a, isActive x a →
      rootOf (upd y t (s : Int)) a
        = if rootOf y a = t then s else rootOf y a := by
  have hInv' : Inv x shape dirs (upd y t (s : Int)) :=
    Inv_upd hInv hst has hat hconn
  have hsne : s ≠ t := Nat.ne_of_lt hst
  have hs' : upd y t (s : Int) s = (s : Int) := by
    rw [upd_ne _ _ _ hsne]
    exact hs
  intro a
  induction a using Nat.strong_induction_on with
  | _ a ihs =>
      intro ha
      by_cases hself : y a = (a : Int)
      · have hr : rootOf y a = a := rootOf_root hself
        by_cases hta : a = t
        · subst hta
          rw [hr, if_pos rfl]
          have hne : upd y a (s : Int) a ≠ (a : Int) := by
            rw [upd_eq_self]
            omega
          rw [rootOf_step hInv' hat hne]
          have htoNat : (upd y a (s : Int) a).toNat = s := by
            rw [upd_eq_self, Int.toNat_natCast]
          rw [htoNat]
          exact rootOf_root hs'
        · rw [hr, if_neg hta]
          exact rootOf_root (by rw [upd_ne _ _ _ hta]; exact hself)
      · have hta : a ≠ t := by
          intro h
          exact hself (h ▸ ht)
        have hb : (y a).toNat < a := by
          have h1 := hInv.act_le a ha
          rcases Nat.lt_or_ge (y a).toNat a with h | h
          · exact h
          · exfalso
            apply hself
            rw [yval_eq_toNat hInv ha]
            omega
        have hact := hInv.act_act a ha
        have hstep := rootOf_step hInv ha hself
        have hyeq : upd y t (s : Int) a = y a := upd_ne _ _ _ hta
        have hself' : upd y t (s : Int) a ≠ (a : Int) := by
          rw [hyeq]
          exact hself
        have h1 := rootOf_step hInv' ha hself'
        rw [hyeq] at h1
        rw [h1, hstep]
        exact ihs _ hb hact

end CupyLabel

namespace CupyLabel

/-- The kernel's `y[i] < 0` guard detects exactly the inactive cells. -/
theorem active_of_not_neg {x : List Int} {shape : List Nat}
    {dirs : List (List Int)} {y : Nat → Int} (hInv : Inv x shape dirs y)
    {i : Nat} (h : ¬ y i < 0) : isActive x i := by
  by_contra hi
  rw [hInv.inact i hi] at h
  exact h (by norm_num)

theorem not_neg_of_active {x : List Int} {shape : List Nat}
    {dirs : List (List Int)} {y : Nat → Int} (hInv : Inv x shape dirs y)
    {i : Nat} (h : isActive x i) : ¬ y i < 0 := by
  have := hInv.act_nonneg i h
  omega

theorem unionStep_inv {x : List Int} {shape : List Nat}
    {dirs : List (List Int)} {y : Nat → Int} (hInv : Inv x shape dirs y)
    {a b : Nat} (ha : isActive x a) (hb : isActive x b)
    (hconn : connG x shape dirs a b) :
    Inv x shape dirs (unionStep y a b) := by
  obtain ⟨hra_act, hra_root, _, hra_conn⟩ := rootOf_spec hInv ha
  obtain ⟨hrb_act, hrb_root, _, hrb_conn⟩ := rootOf_spec hInv hb
  simp only [unionStep]
  split_ifs with h1 h2
  · exact hInv
  · refine Inv_upd hInv h2 hra_act hrb_act ?_
    exact Relation.EqvGen.trans _ _ _
      (Relation.EqvGen.trans _ _ _ (Relation.EqvGen.symm _ _ hrb_conn)
        (Relation.EqvGen.symm _ _ hconn)) hra_conn
  · have h3 : rootOf y b < rootOf y a := by omega
    refine Inv_upd hInv h3 hrb_act hra_act ?_
    exact Relation.EqvGen.trans _ _ _
      (Relation.EqvGen.trans _ _ _ (Relation.EqvGen.symm _ _ hra_conn) hconn)
      hrb_conn

/-- The committed union redirects exactly the class of the larger root to
the smaller root. -/
theorem unionStep_rootOf {x : List Int} {shape : List Nat}
    {dirs : List (List Int)} {y : Nat → Int} (hInv : Inv x shape dirs y)
    {a b : Nat} (ha : isActive x a) (hb : isActive x b)
    (hconn : connG x shape dirs a b) (c : Nat) (hc : isActive x c) :
    rootOf (unionStep y a b) c =
      if rootOf y c = max (rootOf y a) (rootOf y b) ∧ rootOf y a ≠ rootOf y b
      then min (rootOf y a) (rootOf y b) else rootOf y c := by
  obtain ⟨hra_act, hra_root, _, hra_conn⟩ := rootOf_spec hInv ha
  obtain ⟨hrb_act, hrb_root, _, hrb_conn⟩ := rootOf_spec hInv hb
  simp only [unionStep]
  by_cases h1 : rootOf y a = rootOf y b
  · rw [if_pos h1]
    simp [h1]
  rw [if_neg h1]
  by_cases h2 : rootOf y a < rootOf y b
  · rw [if_pos h2]
    have hcb : connG x shape dirs (rootOf y b) (rootOf y a) :=
      Relation.EqvGen.trans _ _ _
        (Relation.EqvGen.trans _ _ _ (Relation.EqvGen.symm _ _ hrb_conn)
          (Relation.EqvGen.symm _ _ hconn)) hra_conn
    rw [rootOf_upd hInv hra_root hrb_root h2 hra_act hrb_act hcb c hc]
    rw [Nat.max_eq_right (le_of_lt h2), Nat.min_eq_left (le_of_lt h2)]
    by_cases hcc : rootOf y c = rootOf y b <;> simp [hcc, h1]
  · rw [if_neg h2]
    have h3 : rootOf y b < rootOf y a := by omega
    have hcb : connG x shape dirs (rootOf y a) (rootOf y b) :=
      Relation.EqvGen.trans _ _ _
        (Relation.EqvGen.trans _ _ _ (Relation.EqvGen.symm _ _ hra_conn)
          hconn) hrb_conn
    rw [rootOf_upd hInv hrb_root hra_root h3 hrb_act hra_act hcb c hc]
    rw [Nat.max_eq_left (le_of_lt h3), Nat.min_eq_right (le_of_lt h3)]
    by_cases hcc : rootOf y c = rootOf y a <;> simp [hcc, h1]

theorem connectEvent_inv {x : List Int} {shape : List Nat}
    {dirs : List (List Int)} {y : Nat → Int} (hInv : Inv x shape dirs y)
    {e : Nat × List Int} (hd : e.2 ∈ dirs) :
    Inv x shape dirs (connectEvent shape y e) := by
  unfold connectEvent
  by_cases h1 : y e.1 < 0
  · rw [if_pos h1]
    exact hInv
  · rw [if_neg h1]
    cases hnb : neighbor shape e.2 e.1 with
    | none => exact hInv
    | some k =>
        show Inv x shape dirs (if y k < 0 then y else unionStep y e.1 k)
        by_cases h2 : y k < 0
        · rw [if_pos h2]
          exact hInv
        · rw [if_neg h2]
          have ha := active_of_not_neg hInv h1
          have hb := active_of_not_neg hInv h2
          exact unionStep_inv hInv ha hb
            (Relation.EqvGen.rel _ _ ⟨ha, hb, e.2, hd, hnb⟩)

/-- Cells with equal roots keep equal roots through any event. -/
theorem connectEvent_sameRoot {x : List Int} {shape : List Nat}
    {dirs : List (List Int)} {y : Nat → Int} (hInv : Inv x shape dirs y)
    {e : Nat × List Int} (hd : e.2 ∈ dirs) {c1 c2 : Nat}
    (hc1 : isActive x c1) (hc2 : isActive x c2)
    (h : rootOf y c1 = rootOf y c2) :
    rootOf (connectEvent shape y e) c1 = rootOf (connectEvent shape y e) c2 := by
  unfold connectEvent
  by_cases h1 : y e.1 < 0
  · rw [if_pos h1]
    exact h
  · rw [if_neg h1]
    cases hnb : neighbor shape e.2 e.1 with
    | none => exact h
    | some k =>
        show rootOf (if y k < 0 then y else unionStep y e.1 k) c1
          = rootOf (if y k < 0 then y else unionStep y e.1 k) c2
        by_cases h2 : y k < 0
        · rw [if_pos h2]
          exact h
        · rw [if_neg h2]
          have ha := active_of_not_neg hInv h1
          have hb := active_of_not_neg hInv h2
          have hcn : connG x shape dirs e.1 k :=
            Relation.EqvGen.rel _ _ ⟨ha, hb, e.2, hd, hnb⟩
          rw [unionStep_rootOf hInv ha hb hcn c1 hc1,
            unionStep_rootOf hInv ha hb hcn c2 hc2, h]

/-- Processing the event `(i, d)` makes the roots of `i` and its in-bounds
active neighbor equal. -/
theorem connectEvent_unites {x : List Int} {shape : List Nat}
    {dirs : List (List Int)} {y : Nat → Int} (hInv : Inv x shape dirs y)
    {i k : Nat} {d : List Int} (hd : d ∈ dirs) (hi : isActive x i)
    (hnb : neighbor shape d i = some k) (hk : isActive x k) :
    rootOf (connectEvent shape y (i, d)) i
      = rootOf (connectEvent shape y (i, d)) k := by
  unfold connectEvent
  rw [if_neg (not_neg_of_active hInv hi)]
  simp only [hnb]
  rw [if_neg (not_neg_of_active hInv hk)]
  have hcn : connG x shape dirs i k :=
    Relation.EqvGen.rel _ _ ⟨hi, hk, d, hd, hnb⟩
  rw [unionStep_rootOf hInv hi hk hcn i hi,
    unionStep_rootOf hInv hi hk hcn k hk]
  by_cases he : rootOf y i = rootOf y k
  · simp [he]
  · rcases Nat.lt_or_ge (rootOf y i) (rootOf y k) with hlt | hge
    · rw [Nat.max_eq_right (le_of_lt hlt), Nat.min_eq_left (le_of_lt hlt)]
      have hne : rootOf y i ≠ rootOf y k := he
      simp [hne, Nat.ne_of_lt hlt]
    · have hlt : rootOf y k < rootOf y i := by omega
      rw [Nat.max_eq_left (le_of_lt hlt), Nat.min_eq_right (le_of_lt hlt)]
      simp [he, Nat.ne_of_lt hlt]

end CupyLabel

namespace CupyLabel

theorem connectPhase_cons (shape : List Nat) (y : Nat → Int)
    (e : Nat × List Int) (es : List (Nat × List Int)) :
    connectPhase shape y (e :: es)
      = connectPhase shape (connectEvent shape y e) es := rfl

theorem connectPhase_inv {x : List Int} {shape : List Nat}
    {dirs : List (List Int)} :
    ∀ (es : List (Nat × List Int)) (y : Nat → Int), Inv x shape dirs y →
      (∀ e ∈ es, e.2 ∈ dirs) →
      Inv x shape dirs (connectPhase shape y es) := by
  intro es
  induction es with
  | nil => intro y hInv _; exact hInv
  | cons e tl ih =>
      intro y hInv hds
      rw [connectPhase_cons]
      exact ih _ (connectEvent_inv hInv (hds e (List.mem_cons_self e tl)))
        (fun e' he' => hds e' (List.mem_cons_of_mem _ he'))

/-- Root equality of active cells survives the whole connect phase. -/
theorem connectPhase_sameRoot {x : List Int} {shape : List Nat}
    {dirs : List (List Int)} :
    ∀ (es : List (Nat × List Int)) (y : Nat → Int), Inv x shape dirs y →
      (∀ e ∈ es, e.2 ∈ dirs) → ∀ {c1 c2 : Nat}, isActive x c1 →
      isActive x c2 → rootOf y c1 = rootOf y c2 →
      rootOf (connectPhase shape y es) c1
        = rootOf (connectPhase shape y es) c2 := by
  intro es
  induction es with
  | nil => intro y _ _ _ _ _ _ h; exact h
  | cons e tl ih =>
      intro y hInv hds c1 c2 hc1 hc2 h
      rw [connectPhase_cons]
      exact ih _ (connectEvent_inv hInv (hds e (List.mem_cons_self e tl)))
        (fun e' he' => hds e' (List.mem_cons_of_mem _ he')) hc1 hc2
        (connectEvent_sameRoot hInv (hds e (List.mem_cons_self e tl))
          hc1 hc2 h)

/-- Every edge event present in the schedule leaves the two endpoints with
equal roots at the end of the connect phase. -/
theorem connectPhase_unites {x : List Int} {shape : List Nat}
    {dirs : List (List Int)} :
    ∀ (es : List (Nat × List Int)) (y : Nat → Int), Inv x shape dirs y →
      (∀ e ∈ es, e.2 ∈ dirs) → ∀ {i k : Nat} {d : List Int},
      (i, d) ∈ es → isActive x i → neighbor shape d i = some k →
      isActive x k →
      rootOf (connectPhase shape y es) i
        = rootOf (connectPhase shape y es) k := by
  intro es
  induction es with
  | nil => intro y _ _ _ _ _ hmem; exact absurd hmem (List.not_mem_nil _)
  | cons e tl ih =>
      intro y hInv hds i k d hmem hi hnb hk
      rw [connectPhase_cons]
      have hInv' : Inv x shape dirs (connectEvent shape y e) :=
        connectEvent_inv hInv (hds e (List.mem_cons_self e tl))
      have hds' : ∀ e' ∈ tl, e'.2 ∈ dirs :=
        fun e' he' => hds e' (List.mem_cons_of_mem _ he')
      rcases List.mem_cons.1 hmem with heq | hmem'
      · subst heq
        exact connectPhase_sameRoot tl _ hInv' hds' hi hk
          (connectEvent_unites hInv (hds _ (List.mem_cons_self _ tl)) hi hnb hk)
      · exact ih _ hInv' hds' hmem' hi hnb hk

/-- Equal final roots only relate connected cells. -/
theorem conn_of_sameRoot {x : List Int} {shape : List Nat}
    {dirs : List (List Int)} {y : Nat → Int} (hInv : Inv x shape dirs y)
    {p q : Nat} (hp : isActive x p) (hq : isActive x q)
    (h : rootOf y p = rootOf y q) : connG x shape dirs p q := by
  have h1 := (rootOf_spec hInv hp).2.2.2
  have h2 := (rootOf_spec hInv hq).2.2.2
  rw [h] at h1
  exact Relation.EqvGen.trans _ _ _ h1 (Relation.EqvGen.symm _ _ h2)

/-- Connected cells end the connect phase with equal roots, given a covering
schedule. -/
theorem sameRoot_of_conn {x : List Int} {shape : List Nat}
    {dirs : List (List Int)} {n : Nat} {es : List (Nat × List Int)}
    (hcov : covers n dirs es) (hn : ∀ i, isActive x i → i < n)
    {y : Nat → Int} (hInv : Inv x shape dirs y) {p q : Nat}
    (h : connG x shape dirs p q) :
    rootOf (connectPhase shape y es) p
      = rootOf (connectPhase shape y es) q := by
  induction h with
  | rel a b hab =>
      obtain ⟨ha, hb, d, hd, hnb⟩ := hab
      exact connectPhase_unites es y hInv hcov.1
        (hcov.2 a (hn a ha) d hd) ha hnb hb
  | refl a => rfl
  | symm a b _ iha => exact iha.symm
  | trans a b c _ _ iha ihb => exact iha.trans ihb

/-- The partition computed by the connect phase is exactly connectivity of
the attempted-edge graph. -/
theorem connect_partition {x : List Int} {shape : List Nat}
    {dirs : List (List Int)} {n : Nat} {es : List (Nat × List Int)}
    (hcov : covers n dirs es) (hn : ∀ i, isActive x i → i < n)
    {y : Nat → Int} (hInv : Inv x shape dirs y) {p q : Nat}
    (hp : isActive x p) (hq : isActive x q) :
    rootOf (connectPhase shape y es) p = rootOf (connectPhase shape y es) q
      ↔ connG x shape dirs p q := by
  constructor
  · intro h
    exact conn_of_sameRoot (connectPhase_inv es y hInv hcov.1) hp hq h
  · exact sameRoot_of_conn hcov hn hInv

end CupyLabel

namespace CupyLabel

/-- An active cell is its own chase result exactly when it is self-rooted. -/
theorem rootOf_eq_self_iff {x : List Int} {shape : List Nat}
    {dirs : List (List Int)} {y : Nat → Int} (hInv : Inv x shape dirs y)
    {j : Nat} (hj : isActive x j) : rootOf y j = j ↔ y j = (j : Int) := by
  constructor
  · intro h
    by_contra hne
    have hb : (y j).toNat < j := by
      have h1 := hInv.act_le j hj
      rcases Nat.lt_or_ge (y j).toNat j with hlt | hge
      · exact hlt
      · exact absurd (by rw [yval_eq_toNat hInv hj]; omega) hne
    have := (rootOf_spec hInv (hInv.act_act j hj)).2.2.1
    rw [rootOf_step hInv hj hne] at h
    omega
  · exact rootOf_root

/-- Path compression: writing a cell's resolved root into its entry
preserves the invariant. -/
theorem Inv_upd_root {x : List Int} {shape : List Nat}
    {dirs : List (List Int)} {y : Nat → Int} (hInv : Inv x shape dirs y)
    {t : Nat} (hat : isActive x t) :
    Inv x shape dirs (upd y t ((rootOf y t : Nat) : Int)) := by
  obtain ⟨hr_act, hr_root, hr_le, hr_conn⟩ := rootOf_spec hInv hat
  refine ⟨?_, ?_, ?_, ?_, ?_⟩ <;> intro i hi
  · have hne : i ≠ t := fun h => hi (h ▸ hat)
    rw [upd_ne _ _ _ hne]
    exact hInv.inact i hi
  · by_cases hit : i = t
    · subst hit
      rw [upd_eq_self]
      exact Int.natCast_nonneg _
    · rw [upd_ne _ _ _ hit]
      exact hInv.act_nonneg i hi
  · by_cases hit : i = t
    · subst hit
      rw [upd_eq_self, Int.toNat_natCast]
      exact hr_le
    · rw [upd_ne _ _ _ hit]
      exact hInv.act_le i hi
  · by_cases hit : i = t
    · subst hit
      rw [upd_eq_self, Int.toNat_natCast]
      exact hr_act
    · rw [upd_ne _ _ _ hit]
      exact hInv.act_act i hi
  · by_cases hit : i = t
    · subst hit
      rw [upd_eq_self, Int.toNat_natCast]
      exact hr_conn
    · rw [upd_ne _ _ _ hit]
      exact hInv.conn i hi

/-- Path compression does not change any chase result. -/
theorem rootOf_upd_root {x : List Int} {shape : List Nat}
    {dirs : List (List Int)} {y : Nat → Int} (hInv : Inv x shape dirs y)
    {t : Nat} (hat : isActive x t) :
    ∀ a, isActive x a →
      rootOf (upd y t ((rootOf y t : Nat) : Int)) a = rootOf y a := by
  obtain ⟨hr_act, hr_root, hr_le, hr_conn⟩ := rootOf_spec hInv hat
  have hInv' := Inv_upd_root hInv hat
  intro a
  induction a using Nat.strong_induction_on with
  | _ a ihs =>
      intro ha
      by_cases hta : a = t
      · subst hta
        by_cases hroot : rootOf y a = a
        · have hya : y a = (a : Int) := (rootOf_eq_self_iff hInv ha).1 hroot
          have hfun : upd y a ((rootOf y a : Nat) : Int) = y := by
            funext i
            by_cases hia : i = a
            · subst hia
              rw [upd_eq_self, hroot, hya]
            · rw [upd_ne _ _ _ hia]
          rw [hfun]
        · have hne : upd y a ((rootOf y a : Nat) : Int) a ≠ (a : Int) := by
            rw [upd_eq_self]
            intro h
            exact hroot (by exact_mod_cast h)
          rw [rootOf_step hInv' ha hne]
          have htn : (upd y a ((rootOf y a : Nat) : Int) a).toNat = rootOf y a := by
            rw [upd_eq_self, Int.toNat_natCast]
          rw [htn]
          have hrne : rootOf y a ≠ a := hroot
          exact rootOf_root (by rw [upd_ne _ _ _ hrne]; exact hr_root)
      · by_cases hself : y a = (a : Int)
        · rw [rootOf_root hself, rootOf_root (by rw [upd_ne _ _ _ hta]; exact hself)]
        · have hb : (y a).toNat < a := by
            have h1 := hInv.act_le a ha
            rcases Nat.lt_or_ge (y a).toNat a with h | h
            · exact h
            · exact absurd (by rw [yval_eq_toNat hInv ha]; omega) hself
          have hact := hInv.act_act a ha
          have hyeq : upd y t ((rootOf y t : Nat) : Int) a = y a := upd_ne _ _ _ hta
          have hself' : upd y t ((rootOf y t : Nat) : Int) a ≠ (a : Int) := by
            rw [hyeq]
            exact hself
          have h1 := rootOf_step hInv' ha hself'
          rw [hyeq] at h1
          rw [h1, rootOf_step hInv ha hself]
          exact ihs _ hb hact

theorem countPhase_succ (y : Nat → Int) (n : Nat) :
    countPhase y (n + 1) = countStep (countPhase y n) n := by
  unfold countPhase
  rw [List.range_succ, List.foldl_append]
  rfl

theorem countStep_def (p : (Nat → Int) × Nat) (i : Nat) :
    countStep p i =
      if p.1 i < 0 then p
      else if rootOf p.1 i = i then (p.1, p.2 + 1)
      else (upd p.1 i ((rootOf p.1 i : Nat) : Int), p.2) := rfl

theorem filter_singleton_length_one {p : Nat → Bool} {n : Nat}
    (h : p n = true) : (List.filter p [n]).length = 1 := by
  simp [List.filter, h]

theorem filter_singleton_length_zero {p : Nat → Bool} {n : Nat}
    (h : p n = false) : (List.filter p [n]).length = 0 := by
  simp [List.filter, h]

/-- Full characterisation of the count pass: the invariant persists, chase
results are unchanged, every processed active entry holds its resolved
root, and the counter equals the number of self-rooted active cells
scanned. -/
theorem countPhase_spec {x : List Int} {shape : List Nat}
    {dirs : List (List Int)} {y : Nat → Int} (hInv : Inv x shape dirs y) :
    ∀ n : Nat,
      Inv x shape dirs (countPhase y n).1
      ∧ (∀ a, isActive x a → rootOf (countPhase y n).1 a = rootOf y a)
      ∧ (∀ i, (countPhase y n).1 i
          = if i < n ∧ isActive x i then ((rootOf y i : Nat) : Int) else y i)
      ∧ (countPhase y n).2
          = ((List.range n).filter
              (fun i => decide (isActive x i ∧ rootOf y i = i))).length := by
  intro n
  induction n with
  | zero =>
      refine ⟨hInv, fun a _ => rfl, fun i => ?_, rfl⟩
      show y i = _
      have h1 : ¬ (i < 0 ∧ isActive x i) := by rintro ⟨h, _⟩; omega
      rw [if_neg h1]
  | succ n ih =>
      obtain ⟨ihInv, ihroot, ihval, ihcnt⟩ := ih
      rw [countPhase_succ, countStep_def]
      have hiff : ∀ i : Nat, i ≠ n →
          ((i < n ∧ isActive x i) ↔ (i < n + 1 ∧ isActive x i)) := by
        intro i hin
        constructor
        · rintro ⟨h1, h2⟩; exact ⟨by omega, h2⟩
        · rintro ⟨h1, h2⟩; exact ⟨by omega, h2⟩
      by_cases hact : isActive x n
      · rw [if_neg (not_neg_of_active ihInv hact)]
        have hjr : rootOf (countPhase y n).1 n = rootOf y n := ihroot n hact
        by_cases hroot : rootOf (countPhase y n).1 n = n
        · rw [if_pos hroot]
          have hyn : rootOf y n = n := by rw [← hjr]; exact hroot
          refine ⟨ihInv, ihroot, fun i => ?_, ?_⟩
          · show (countPhase y n).1 i = _
            by_cases hin : i = n
            · rw [hin, ihval n, if_neg (show ¬ (n < n ∧ isActive x n) by
                rintro ⟨h, _⟩; omega),
                if_pos ⟨Nat.lt_succ_self n, hact⟩, hyn]
              exact (rootOf_eq_self_iff hInv hact).1 hyn
            · rw [ihval i, if_congr (hiff i hin) rfl rfl]
          · show (countPhase y n).2 + 1 = _
            rw [List.range_succ, List.filter_append, List.length_append, ihcnt,
              filter_singleton_length_one
                (by rw [decide_eq_true_eq]; exact ⟨hact, hyn⟩)]
        · rw [if_neg hroot]
          have hInv2 := Inv_upd_root ihInv hact
          have hroots := rootOf_upd_root ihInv hact
          have hyn : rootOf y n ≠ n := by rw [← hjr]; exact hroot
          refine ⟨hInv2, ?_, ?_, ?_⟩
          · intro a ha
            rw [hroots a ha]
            exact ihroot a ha
          · intro i
            show upd (countPhase y n).1 n _ i = _
            by_cases hin : i = n
            · rw [hin, upd_eq_self, if_pos ⟨Nat.lt_succ_self n, hact⟩, hjr]
            · rw [upd_ne _ _ _ hin, ihval i, if_congr (hiff i hin) rfl rfl]
          · show (countPhase y n).2 = _
            rw [List.range_succ, List.filter_append, List.length_append, ihcnt,
              filter_singleton_length_zero
                (by rw [decide_eq_false_iff_not]; rintro ⟨_, h⟩; exact hyn h)]
            omega
      · have hneg : (countPhase y n).1 n < 0 := by
          rw [ihInv.inact n hact]
          norm_num
        rw [if_pos hneg]
        refine ⟨ihInv, ihroot, fun i => ?_, ?_⟩
        · show (countPhase y n).1 i = _
          by_cases hin : i = n
          · rw [hin, ihval n, if_neg (by rintro ⟨h, _⟩; omega),
              if_neg (by rintro ⟨_, h⟩; exact hact h)]
          · rw [ihval i, if_congr (hiff i hin) rfl rfl]
        · show (countPhase y n).2 = _
          rw [List.range_succ, List.filter_append, List.length_append, ihcnt,
            filter_singleton_length_zero
              (by rw [decide_eq_false_iff_not]; rintro ⟨h, _⟩; exact hact h)]
          omega

end CupyLabel

namespace CupyLabel

theorem getD_eq_getElem (L : List Int) (i : Nat) (h : i < L.length) :
    L.getD i 0 = L[i] := by
  rw [List.getD_eq_getElem?_getD, List.getElem?_eq_getElem h]
  rfl

theorem sorted_getElem_lt {L : List Int} (hL : L.Pairwise (· < ·))
    {a b : Nat} (ha : a < L.length) (hb : b < L.length) (hab : a < b) :
    L[a] < L[b] := by
  have := List.Sorted.rel_get_of_lt (l := L) (r := (· < ·)) hL
    (a := ⟨a, ha⟩) (b := ⟨b, hb⟩) hab
  simpa using this

theorem get_eq_of_idx_eq (L : List Int) {a b : Nat} (h : a = b)
    (ha : a < L.length) (hb : b < L.length) : L[a] = L[b] := by
  subst h
  rfl

theorem tdiv_two_bounds {a : Int} (h : 0 ≤ a) :
    2 * a.tdiv 2 ≤ a ∧ a ≤ 2 * a.tdiv 2 + 1 := by
  have h1 := Int.tdiv_add_tmod a 2
  have h2 := Int.tmod_nonneg 2 h
  have h3 := Int.tmod_lt_of_pos a (by norm_num : (0 : Int) < 2)
  omega

/-- The truncated-midpoint binary-search loop of `_kernel_finalize` lands on
the index of `yi` whenever `yi` occurs in the strictly sorted window. -/
theorem bsearchLoop_finds (L : List Int) (hL : L.Pairwise (· < ·)) (yi : Int) :
    ∀ (fuel : Nat) (jmin jmax : Int) (idx : Nat) (hidx : idx < L.length),
      L[idx] = yi → 0 ≤ jmin → jmin ≤ (idx : Int) → (idx : Int) ≤ jmax →
      jmax < (L.length : Int) → (jmax - jmin).toNat < fuel →
      bsearchLoop L yi fuel jmin jmax (Int.tdiv (jmin + jmax) 2) = (idx : Int) := by
  intro fuel
  induction fuel with
  | zero => intro jmin jmax idx _ _ _ _ _ _ hf; omega
  | succ fuel ih =>
      intro jmin jmax idx hidx hval hj0 hji hij hjlen hf
      have hsum : 0 ≤ jmin + jmax := by omega
      obtain ⟨hdb1, hdb2⟩ := tdiv_two_bounds hsum
      set j := Int.tdiv (jmin + jmax) 2 with hjdef
      have hjlo : jmin ≤ j := by omega
      have hjhi : j ≤ jmax := by omega
      have hjnn : 0 ≤ j := by omega
      have hjlt : j.toNat < L.length := by omega
      rw [bsearchLoop]
      by_cases hlt : jmin < jmax
      · rw [if_pos hlt]
        rw [getD_eq_getElem L j.toNat hjlt]
        by_cases heq : yi = L[j.toNat]
        · rw [if_pos heq]
          rcases Nat.lt_trichotomy idx j.toNat with h | h | h
          · exfalso
            have := sorted_getElem_lt hL hidx hjlt h
            rw [hval, ← heq] at this
            exact lt_irrefl _ this
          · omega
          · exfalso
            have := sorted_getElem_lt hL hjlt hidx h
            rw [hval, ← heq] at this
            exact lt_irrefl _ this
        · rw [if_neg heq]
          by_cases hlt2 : yi < L[j.toNat]
          · rw [if_pos hlt2]
            have hidxj : idx < j.toNat := by
              rcases Nat.lt_trichotomy idx j.toNat with h | h | h
              · exact h
              · exfalso
                apply heq
                rw [← get_eq_of_idx_eq L h hidx hjlt]
                exact hval.symm
              · exfalso
                have := sorted_getElem_lt hL hjlt hidx h
                rw [hval] at this
                omega
            exact ih jmin (j - 1) idx hidx hval hj0 hji (by omega)
              (by omega) (by omega)
          · rw [if_neg hlt2]
            have hgt : L[j.toNat] < yi := by
              rcases lt_trichotomy yi L[j.toNat] with h | h | h
              · exact absurd h hlt2
              · exact absurd h heq
              · exact h
            have hjidx : j.toNat < idx := by
              rcases Nat.lt_trichotomy j.toNat idx with h | h | h
              · exact h
              · exfalso
                apply heq
                rw [← get_eq_of_idx_eq L h.symm hidx hjlt]
                exact hval.symm
              · exfalso
                have := sorted_getElem_lt hL hidx hjlt h
                rw [hval] at this
                omega
            exact ih (j + 1) jmax idx hidx hval (by omega) (by omega) hij
              hjlen (by omega)
      · rw [if_neg hlt]
        omega

/-- `_kernel_finalize`'s full binary search returns the index of any value
present in the strictly sorted label list of length `maxlabel`. -/
theorem bsearch_finds (L : List Int) (hL : L.Pairwise (· < ·)) (yi : Int)
    (maxlabel : Nat) (hml : L.length = maxlabel) (idx : Nat)
    (hidx : idx < L.length) (hval : L[idx] = yi) :
    bsearch L yi maxlabel = (idx : Int) := by
  unfold bsearch
  exact bsearchLoop_finds L hL yi (maxlabel + 1) 0 ((maxlabel : Int) - 1) idx
    hidx hval le_rfl (by omega) (by omega) (by omega) (by omega)

end CupyLabel

namespace CupyLabel

theorem getD_map_range (f : Nat → Int) (n i : Nat) (h : i < n) :
    ((List.range n).map f).getD i 0 = f i := by
  rw [getD_eq_getElem _ _ (by simpa using h), List.getElem_map,
    List.getElem_range]

/-- After the count pass the self-rooted entries are exactly the final
roots of the connect phase. -/
theorem labelsList_eq_rootsList {x : List Int} {shape : List Nat}
    {dirs : List (List Int)} {y1 : Nat → Int} (hInv1 : Inv x shape dirs y1)
    (n : Nat) :
    labelsList (countPhase y1 n).1 n = rootsList x y1 n := by
  apply List.filter_congr
  intro i hi
  rw [List.mem_range] at hi
  rw [(countPhase_spec hInv1 n).2.2.1 i]
  by_cases hact : isActive x i
  · rw [if_pos ⟨hi, hact⟩]
    simp [hact, Nat.cast_inj]
  · rw [if_neg (by rintro ⟨_, h⟩; exact hact h)]
    rw [hInv1.inact i hact]
    simp [hact]

theorem rootsList_sorted (x : List Int) (y : Nat → Int) (n : Nat) :
    (rootsList x y n).Pairwise (· < ·) :=
  List.Pairwise.sublist (List.filter_sublist _) (List.sorted_lt_range n)

theorem rootsList_cast_sorted (x : List Int) (y : Nat → Int) (n : Nat) :
    ((rootsList x y n).map Int.ofNat).Pairwise (· < ·) := by
  rw [List.pairwise_map]
  refine List.Pairwise.imp ?_ (rootsList_sorted x y n)
  intro a b h
  exact Int.ofNat_lt.2 h

theorem rootOf_mem_rootsList {x : List Int} {shape : List Nat}
    {dirs : List (List Int)} {y1 : Nat → Int} (hInv1 : Inv x shape dirs y1)
    {i n : Nat} (hi : isActive x i) (hin : i < n) :
    rootOf y1 i ∈ rootsList x y1 n := by
  unfold rootsList
  rw [List.mem_filter]
  refine ⟨List.mem_range.2 (by have := (rootOf_spec hInv1 hi).2.2.1; omega), ?_⟩
  rw [decide_eq_true_eq]
  exact ⟨(rootOf_spec hInv1 hi).1, rootOf_idem hInv1 hi⟩

/-- Unfolding of `_label` into its phases. -/
theorem labelCore_def (x : List Int) (shape : List Nat)
    (es : List (Nat × List Int)) :
    labelCore x shape es
      = (finalizePhase
            (countPhase (connectPhase shape (initY x) es) shape.prod).1
            ((labelsList
                (countPhase (connectPhase shape (initY x) es) shape.prod).1
                shape.prod).map Int.ofNat)
            (countPhase (connectPhase shape (initY x) es) shape.prod).2
            shape.prod,
         (countPhase (connectPhase shape (initY x) es) shape.prod).2) := rfl

/-- Full characterisation of `_label` run over any admissible schedule: the
output has one entry per cell, the feature count is the number of final
roots, inactive cells are labeled 0, and each active cell receives one plus
the position of its root in the ascending root list. -/
theorem labelCore_spec (x : List Int) (shape : List Nat)
    (dirs : List (List Int)) (es : List (Nat × List Int))
    (hds : ∀ e ∈ es, e.2 ∈ dirs) :
    (labelCore x shape es).1.length = shape.prod
    ∧ (labelCore x shape es).2
        = (rootsList x (connectPhase shape (initY x) es) shape.prod).length
    ∧ (∀ i, i < shape.prod → ¬ isActive x i →
        (labelCore x shape es).1.getD i 0 = 0)
    ∧ (∀ i, i < shape.prod → isActive x i →
        ∃ idx : Fin (rootsList x (connectPhase shape (initY x) es)
            shape.prod).length,
          (rootsList x (connectPhase shape (initY x) es) shape.prod).get idx
              = rootOf (connectPhase shape (initY x) es) i
          ∧ (labelCore x shape es).1.getD i 0 = ((idx : Nat) : Int) + 1) := by
  have hInv1 : Inv x shape dirs (connectPhase shape (initY x) es) :=
    connectPhase_inv es _ (Inv_init x shape dirs) hds
  obtain ⟨hInv2, hroot2, hval2, hcnt2⟩ := countPhase_spec hInv1 shape.prod
  rw [labelCore_def, labelsList_eq_rootsList hInv1]
  refine ⟨by simp [finalizePhase, finalizeCell], hcnt2, ?_, ?_⟩
  · intro i hin hact
    unfold finalizePhase
    rw [getD_map_range _ _ _ hin]
    unfold finalizeCell
    rw [hval2 i, if_neg (show ¬ (i < shape.prod ∧ isActive x i) by
      rintro ⟨_, h⟩; exact hact h),
      hInv1.inact i hact, if_pos (show (-1 : Int) < 0 by norm_num)]
  · intro i hin hact
    have hmem : rootOf (connectPhase shape (initY x) es) i
        ∈ rootsList x (connectPhase shape (initY x) es) shape.prod :=
      rootOf_mem_rootsList hInv1 hact hin
    obtain ⟨idx, hget⟩ := List.mem_iff_get.1 hmem
    refine ⟨idx, hget, ?_⟩
    unfold finalizePhase
    rw [getD_map_range _ _ _ hin]
    unfold finalizeCell
    rw [hval2 i,
      if_pos (show i < shape.prod ∧ isActive x i from ⟨hin, hact⟩),
      if_neg (show ¬ ((rootOf (connectPhase shape (initY x) es) i : Nat) : Int)
          < 0 by omega)]
    have hcast : ((rootsList x (connectPhase shape (initY x) es)
          shape.prod).map Int.ofNat)[(idx : Nat)]
        = ((rootOf (connectPhase shape (initY x) es) i : Nat) : Int) := by
      rw [List.getElem_map]
      congr 1
    rw [bsearch_finds _ (rootsList_cast_sorted x _ shape.prod) _
      (countPhase (connectPhase shape (initY x) es) shape.prod).2
      (by rw [List.length_map]; exact hcnt2.symm) (idx : Nat)
      (by simp) hcast]

end CupyLabel

namespace CupyLabel

/-- The accumulator form of the per-axis loop equals the pure mixed-radix
rewrite. -/
theorem neighborGo_eq_pure :
    ∀ (dims : List (Nat × Int)) (rest stride k : Nat),
      neighborGo dims rest stride k
        = (pureNeighbor dims rest).map (fun m => k + stride * m) := by
  intro dims
  induction dims with
  | nil =>
      intro rest stride k
      simp [neighborGo, pureNeighbor]
  | cons p tl ih =>
      rcases p with ⟨s, d⟩
      intro rest stride k
      simp only [neighborGo, pureNeighbor]
      by_cases hb : ((rest % s : Nat) : Int) + d < 0
          ∨ (s : Int) ≤ ((rest % s : Nat) : Int) + d
      · rw [if_pos hb, if_pos hb]
        rfl
      · rw [if_neg hb, if_neg hb, ih]
        cases pureNeighbor tl (rest / s) with
        | none => rfl
        | some m =>
            simp only [Option.map_some']
            congr 1
            ring

end CupyLabel

namespace CupyLabel

/-- In-bounds displacement is invertible: negating the offsets leads back,
and the target stays inside the grid. -/
theorem pureNeighbor_inv :
    ∀ (dims : List (Nat × Int)) (i k : Nat), i < prodDims dims →
      pureNeighbor dims i = some k →
      k < prodDims dims ∧ pureNeighbor (negDims dims) k = some i := by
  intro dims
  induction dims with
  | nil =>
      intro i k hi hk
      simp only [pureNeighbor] at hk
      injection hk with hk
      simp only [prodDims, List.map_nil, List.prod_nil] at hi
      have hi0 : i = 0 := by omega
      refine ⟨?_, ?_⟩
      · show k < prodDims []
        simp only [prodDims, List.map_nil, List.prod_nil]
        omega
      · show pureNeighbor [] k = some i
        simp only [pureNeighbor, hi0]
  | cons p tl ih =>
      rcases p with ⟨s, d⟩
      intro i k hi hk
      have hprod : prodDims ((s, d) :: tl) = s * prodDims tl := by
        simp [prodDims]
      rw [hprod] at hi
      have hs : 0 < s := by
        by_contra hs0
        have h0 : s = 0 := by omega
        subst h0
        simp at hi
      have htl : i / s < prodDims tl := by
        rw [Nat.div_lt_iff_lt_mul hs, Nat.mul_comm]
        exact hi
      simp only [pureNeighbor] at hk
      by_cases hb : ((i % s : Nat) : Int) + d < 0
          ∨ (s : Int) ≤ ((i % s : Nat) : Int) + d
      · rw [if_pos hb] at hk
        exact absurd hk (by simp)
      · rw [if_neg hb] at hk
        cases hrec : pureNeighbor tl (i / s) with
        | none => rw [hrec] at hk; exact absurd hk (by simp)
        | some m =>
            rw [hrec] at hk
            simp only [Option.map_some'] at hk
            injection hk with hk
            obtain ⟨hm, hback⟩ := ih (i / s) m htl hrec
            push_neg at hb
            obtain ⟨hb1, hb2⟩ := hb
            have hposn : (((i % s : Nat) : Int) + d).toNat < s := by omega
            have hkval : k = (((i % s : Nat) : Int) + d).toNat + s * m := hk.symm
            have hkbound : k < s * prodDims tl := by nlinarith
            refine ⟨by rw [hprod]; exact hkbound, ?_⟩
            have hkmod : k % s = (((i % s : Nat) : Int) + d).toNat := by
              rw [hkval, Nat.add_mul_mod_self_left]
              exact Nat.mod_eq_of_lt hposn
            have hkdiv : k / s = m := by
              rw [hkval, Nat.add_mul_div_left _ _ hs,
                Nat.div_eq_of_lt hposn]
              omega
            show pureNeighbor ((s, -d) :: negDims tl) k = some i
            simp only [pureNeighbor]
            have hmodlt : i % s < s := Nat.mod_lt _ hs
            have hmod : ((k % s : Nat) : Int) + (-d) = ((i % s : Nat) : Int) := by
              rw [hkmod]
              omega
            rw [if_neg (by rw [hmod]; push_neg; constructor <;> omega)]
            rw [hkdiv, hback]
            simp only [Option.map_some']
            congr 1
            have hptn : (((k % s : Nat) : Int) + (-d)).toNat = i % s := by
              rw [hmod]
              omega
            rw [hptn, Nat.mod_add_div]

end CupyLabel

namespace CupyLabel

/-- The all-zero displacement stays in place. -/
theorem pureNeighbor_zeroOffsets :
    ∀ (dims : List (Nat × Int)), (∀ p ∈ dims, p.2 = 0) →
      ∀ i, i < prodDims dims → pureNeighbor dims i = some i := by
  intro dims
  induction dims with
  | nil =>
      intro _ i hi
      simp only [prodDims, List.map_nil, List.prod_nil] at hi
      have : i = 0 := by omega
      simp [pureNeighbor, this]
  | cons p tl ih =>
      rcases p with ⟨s, d⟩
      intro hz i hi
      have hd : d = 0 := hz (s, d) (List.mem_cons_self _ _)
      have hprod : prodDims ((s, d) :: tl) = s * prodDims tl := by
        simp [prodDims]
      rw [hprod] at hi
      have hs : 0 < s := by
        by_contra hs0
        have h0 : s = 0 := by omega
        subst h0
        simp at hi
      have htl : i / s < prodDims tl := by
        rw [Nat.div_lt_iff_lt_mul hs, Nat.mul_comm]
        exact hi
      have hmodlt : i % s < s := Nat.mod_lt _ hs
      simp only [pureNeighbor, hd]
      rw [if_neg (by push_neg; constructor <;> omega)]
      rw [ih (fun p hp => hz p (List.mem_cons_of_mem _ hp)) (i / s) htl]
      simp only [Option.map_some']
      congr 1
      have : (((i % s : Nat) : Int) + 0).toNat = i % s := by omega
      rw [this, Nat.mod_add_div]

theorem neighbor_eq_pure (shape : List Nat) (d : List Int) (i : Nat) :
    neighbor shape d i = pureNeighbor ((shape.zip d).reverse) i := by
  unfold neighbor
  rw [neighborGo_eq_pure]
  cases pureNeighbor ((shape.zip d).reverse) i with
  | none => rfl
  | some m => simp

theorem prodDims_rev_zip {shape : List Nat} {d : List Int}
    (hlen : shape.length = d.length) :
    prodDims ((shape.zip d).reverse) = shape.prod := by
  unfold prodDims
  rw [List.map_reverse, List.prod_reverse,
    List.map_fst_zip shape d (le_of_eq hlen)]

theorem negDims_rev_zip {shape : List Nat} {d : List Int} :
    negDims ((shape.zip d).reverse)
      = (shape.zip (d.map (fun c => -c))).reverse := by
  unfold negDims
  rw [List.map_reverse, List.zip_map_right]
  congr 1

/-- The kernel's neighbor computation is invertible by negating the
direction vector. -/
theorem neighbor_inv (shape : List Nat) (d : List Int)
    (hlen : shape.length = d.length) {i k : Nat} (hi : i < shape.prod)
    (h : neighbor shape d i = some k) :
    k < shape.prod ∧ neighbor shape (d.map (fun c => -c)) k = some i := by
  rw [neighbor_eq_pure] at h
  have hres := pureNeighbor_inv _ i k
    (by rw [prodDims_rev_zip hlen]; exact hi) h
  rw [prodDims_rev_zip hlen] at hres
  obtain ⟨h1, h2⟩ := hres
  refine ⟨h1, ?_⟩
  rw [neighbor_eq_pure, ← negDims_rev_zip]
  exact h2

/-- The zero offset vector maps every in-bounds cell to itself. -/
theorem neighbor_zero_vec (shape : List Nat) {i : Nat} (hi : i < shape.prod) :
    neighbor shape (List.replicate shape.length 0) i = some i := by
  rw [neighbor_eq_pure]
  apply pureNeighbor_zeroOffsets
  · intro p hp
    rw [List.mem_reverse] at hp
    rcases p with ⟨a, b⟩
    exact List.eq_of_mem_replicate (List.of_mem_zip hp).2
  · rw [prodDims_rev_zip (by simp)]
    exact hi

end CupyLabel

namespace CupyLabel

/-- For a centrosymmetric structuring element the chain step relation is
symmetric. -/
theorem stepRel_symm {x : List Int} {shape : List Nat} {s : List Bool}
    (hs : s.length = 3 ^ shape.length) (hsym : centrosym s)
    (hx : x.length = shape.prod) {p q : Nat}
    (h : stepRel x shape (activeOffsets s shape.length) p q) :
    stepRel x shape (activeOffsets s shape.length) q p := by
  obtain ⟨hp, hq, v, hv, hnb⟩ := h
  have hlenv := (mem_ternaryVectors (mem_of_mem_activeOffsets hv)).1
  have hplt : p < shape.prod := by
    have := isActive_lt hp
    omega
  obtain ⟨hk, hback⟩ := neighbor_inv shape v (by omega) hplt hnb
  exact ⟨hq, hp, v.map (fun c => -c), mem_activeOffsets_neg hs hsym hv, hback⟩

theorem chainRel_symm {x : List Int} {shape : List Nat} {s : List Bool}
    (hs : s.length = 3 ^ shape.length) (hsym : centrosym s)
    (hx : x.length = shape.prod) {p q : Nat}
    (h : chainRel x shape (activeOffsets s shape.length) p q) :
    chainRel x shape (activeOffsets s shape.length) q p := by
  induction h with
  | refl => exact Relation.ReflTransGen.refl
  | tail _ hbc ih =>
      exact Relation.ReflTransGen.head (stepRel_symm hs hsym hx hbc) ih

/-- For a validated centrosymmetric structuring element, connectivity of the
compiled (deduplicated) union edges coincides with the specification's
chains of active structuring-element offsets. -/
theorem conn_iff_chain {x : List Int} {shape : List Nat} {s : List Bool}
    (hs : s.length = 3 ^ shape.length) (hsym : centrosym s)
    (hx : x.length = shape.prod) {p q : Nat} :
    connG x shape (dirsOf s shape.length) p q
      ↔ chainRel x shape (activeOffsets s shape.length) p q := by
  constructor
  · intro h
    induction h with
    | rel a b hab =>
        obtain ⟨ha, hb, d, hd, hnb⟩ := hab
        exact Relation.ReflTransGen.single ⟨ha, hb, d, (mem_dirsOf.1 hd).1, hnb⟩
    | refl a => exact Relation.ReflTransGen.refl
    | symm a b _ ih => exact chainRel_symm hs hsym hx ih
    | trans a b c _ _ ih1 ih2 => exact Relation.ReflTransGen.trans ih1 ih2
  · intro h
    induction h with
    | refl => exact Relation.EqvGen.refl p
    | @tail b c _ hbc ih =>
        obtain ⟨hb, hc, v, hv, hnb⟩ := hbc
        have hcomp := mem_ternaryVectors (mem_of_mem_activeOffsets hv)
        have hlenv := hcomp.1
        have hblt : b < shape.prod := by
          have := isActive_lt hb
          omega
        rcases lt_trichotomy (enc v) 0 with hlt | heq | hgt
        · exact Relation.EqvGen.trans _ _ _ ih
            (Relation.EqvGen.rel _ _ ⟨hb, hc, v, mem_dirsOf.2 ⟨hv, hlt⟩, hnb⟩)
        · have hvz : v = List.replicate shape.length 0 := by
            have hz := enc_eq_zero v hcomp.2 heq
            rw [hcomp.1] at hz
            exact hz
          rw [hvz, neighbor_zero_vec shape hblt] at hnb
          injection hnb with hnb
          rw [← hnb]
          exact ih
        · have hnegenc : enc (v.map (fun c => -c)) < 0 := by
            rw [enc_neg]
            omega
          have hnegmem := mem_activeOffsets_neg hs hsym hv
          obtain ⟨_, hback⟩ := neighbor_inv shape v (by omega) hblt hnb
          exact Relation.EqvGen.trans _ _ _ ih
            (Relation.EqvGen.symm _ _ (Relation.EqvGen.rel _ _
              ⟨hc, hb, v.map (fun c => -c),
                mem_dirsOf.2 ⟨hnegmem, hnegenc⟩, hback⟩))

/-- The serialisation of the kernel launch covers every (cell, direction)
pair. -/
theorem seqSchedule_covers (n : Nat) (dirs : List (List Int)) :
    covers n dirs (seqSchedule n dirs) := by
  constructor
  · intro e he
    unfold seqSchedule at he
    rw [List.mem_flatMap] at he
    obtain ⟨i, _, he⟩ := he
    rw [List.mem_map] at he
    obtain ⟨d, hd, rfl⟩ := he
    exact hd
  · intro i hi d hd
    unfold seqSchedule
    rw [List.mem_flatMap]
    exact ⟨i, List.mem_range.2 hi, List.mem_map.2 ⟨d, hd, rfl⟩⟩

theorem sorted_get_inj {L : List Nat} (hL : L.Pairwise (· < ·))
    {a b : Fin L.length} (h : L.get a = L.get b) : a = b := by
  rcases lt_trichotomy a b with hab | hab | hab
  · exact absurd h (Nat.ne_of_lt (List.Sorted.rel_get_of_lt hL hab))
  · exact hab
  · exact absurd h.symm (Nat.ne_of_lt (List.Sorted.rel_get_of_lt hL hab))

end CupyLabel

namespace CupyLabel

theorem labelSeq_def (x : List Int) (shape : List Nat) (s : List Bool) :
    labelSeq x shape s
      = labelCore x shape
          (seqSchedule shape.prod (dirsOf s shape.length)) := rfl

/-- C1 (amended): for every field and every validated **centrosymmetric**
structuring element, two active cells receive equal labels iff a chain of
active cells joins them in which every consecutive step is an offset that
is an active entry of the structuring element; inactive cells always
receive label 0. -/
theorem label_partition (x : List Int) (shape : List Nat) (s : List Bool)
    (hx : x.length = shape.prod) (hs : s.length = 3 ^ shape.length)
    (hsym : centrosym s) :
    (∀ p q, isActive x p → isActive x q →
      ((labelSeq x shape s).1.getD p 0 = (labelSeq x shape s).1.getD q 0
        ↔ chainRel x shape (activeOffsets s shape.length) p q))
    ∧ (∀ i, i < shape.prod → ¬ isActive x i →
        (labelSeq x shape s).1.getD i 0 = 0) := by
  have hcov := seqSchedule_covers shape.prod (dirsOf s shape.length)
  have hn : ∀ i, isActive x i → i < shape.prod := by
    intro i hi
    have := isActive_lt hi
    omega
  obtain ⟨hlen, hcnt, hinact, hact⟩ :=
    labelCore_spec x shape (dirsOf s shape.length)
      (seqSchedule shape.prod (dirsOf s shape.length)) hcov.1
  rw [labelSeq_def]
  refine ⟨?_, hinact⟩
  intro p q hp hq
  obtain ⟨idxp, hgetp, houtp⟩ := hact p (hn p hp) hp
  obtain ⟨idxq, hgetq, houtq⟩ := hact q (hn q hq) hq
  rw [houtp, houtq]
  constructor
  · intro h
    have hidx : idxp = idxq := by
      apply Fin.ext
      omega
    have hroots : rootOf (connectPhase shape (initY x)
          (seqSchedule shape.prod (dirsOf s shape.length))) p
        = rootOf (connectPhase shape (initY x)
          (seqSchedule shape.prod (dirsOf s shape.length))) q := by
      rw [← hgetp, ← hgetq, hidx]
    exact (conn_iff_chain hs hsym hx).1
      ((connect_partition hcov hn (Inv_init x shape _) hp hq).1 hroots)
  · intro h
    have hconn := (conn_iff_chain hs hsym hx).2 h
    have hroots := (connect_partition hcov hn (Inv_init x shape _) hp hq).2 hconn
    have hidx : idxp = idxq := by
      apply sorted_get_inj (rootsList_sorted x _ shape.prod)
      rw [hgetp, hgetq, hroots]
    rw [hidx]

/-- Witness for the amended C1 at the field `[1,1]` with the symmetric 1-D
structuring element `[1,1,1]`. -/
theorem label_partition_witness :
    ((labelSeq [1, 1] [2] [true, true, true]).1.getD 0 0
        = (labelSeq [1, 1] [2] [true, true, true]).1.getD 1 0
      ↔ chainRel [1, 1] [2] (activeOffsets [true, true, true] 1) 0 1)
    ∧ (labelSeq [1, 1] [2] [true, true, true]).1.getD 0 0
        = (labelSeq [1, 1] [2] [true, true, true]).1.getD 1 0 :=
  ⟨(label_partition [1, 1] [2] [true, true, true] (by decide) (by decide)
      (by decide)).1 0 1 (by decide) (by decide), by decide⟩

/-- C1 as frozen is false: the structuring element `[1,1,0]` passes
validation (rank 1, axis length 3) but is not centrosymmetric; on the field
`[1,1]` both cells receive label 1 even though no chain of active-offset
steps leads from cell 0 to cell 1 (the only active offsets are `-1` and
`0`). -/
theorem label_partition_counterexample :
    labelTop ⟨false, [2], [1, 1], some ([3], [true, true, false]), none⟩
        = .ok ([1, 1], 1)
    ∧ isActive [1, 1] 0 ∧ isActive [1, 1] 1
    ∧ (labelSeq [1, 1] [2] [true, true, false]).1.getD 0 0
        = (labelSeq [1, 1] [2] [true, true, false]).1.getD 1 0
    ∧ ¬ chainRel [1, 1] [2] (activeOffsets [true, true, false] 1) 0 1 := by
  refine ⟨rfl, by decide, by decide, by decide, ?_⟩
  intro h
  have key : ∀ b, chainRel [1, 1] [2] (activeOffsets [true, true, false] 1) 0 b
      → b = 0 := by
    intro b hb
    induction hb with
    | refl => rfl
    | @tail c b2 _ hstep ih =>
        obtain ⟨_, _, v, hv, hnb⟩ := hstep
        subst ih
        have hoffs : activeOffsets [true, true, false] 1 = [[-1], [0]] := by
          decide
        rw [hoffs] at hv
        rcases List.mem_cons.1 hv with rfl | hv2
        · have hnone : neighbor [2] [-1] 0 = none := by decide
          rw [hnone] at hnb
          exact absurd hnb (by simp)
        · rcases List.mem_cons.1 hv2 with rfl | hv3
          · have : neighbor [2] [0] 0 = some 0 := by decide
            rw [this] at hnb
            injection hnb with hnb
            omega
          · exact absurd hv3 (List.not_mem_nil _)
  exact absurd (key 1 h) (by decide)

/-- C8: the concrete 1-D scenario: field `[1,0,1,1,0,1]` with the
face-connectivity structuring element `[1,1,1]` labels to `[1,0,2,2,0,3]`
with feature count 3. -/
theorem scenario_1d :
    labelTop ⟨false, [6], [1, 0, 1, 1, 0, 1], some ([3], [true, true, true]),
        none⟩
      = .ok ([1, 0, 2, 2, 0, 3], 3) := rfl

end CupyLabel

namespace CupyLabel

theorem mem_rootsList_iff {x : List Int} {y : Nat → Int} {n i : Nat} :
    i ∈ rootsList x y n ↔ i < n ∧ isActive x i ∧ rootOf y i = i := by
  unfold rootsList
  rw [List.mem_filter, List.mem_range, decide_eq_true_eq]

/-- C5: the label values are exactly a subset of `{0, ..., featureCount}`,
with 0 present iff some inactive cell exists, and every value in
`1..featureCount` attained. -/
theorem label_density (x : List Int) (shape : List Nat) (s : List Bool)
    (hx : x.length = shape.prod) :
    (∀ v ∈ (labelSeq x shape s).1,
      0 ≤ v ∧ v ≤ ((labelSeq x shape s).2 : Int))
    ∧ ((0 : Int) ∈ (labelSeq x shape s).1
        ↔ ∃ i, i < shape.prod ∧ ¬ isActive x i)
    ∧ (∀ l : Nat, 1 ≤ l → l ≤ (labelSeq x shape s).2 →
        ((l : Nat) : Int) ∈ (labelSeq x shape s).1) := by
  have hcov := seqSchedule_covers shape.prod (dirsOf s shape.length)
  have hn : ∀ i, isActive x i → i < shape.prod := by
    intro i hi
    have := isActive_lt hi
    omega
  obtain ⟨hlen, hcnt, hinact, hact⟩ :=
    labelCore_spec x shape (dirsOf s shape.length)
      (seqSchedule shape.prod (dirsOf s shape.length)) hcov.1
  rw [labelSeq_def] at *
  have hInv1 : Inv x shape (dirsOf s shape.length)
      (connectPhase shape (initY x)
        (seqSchedule shape.prod (dirsOf s shape.length))) :=
    connectPhase_inv _ _ (Inv_init x shape _) hcov.1
  set core := labelCore x shape
      (seqSchedule shape.prod (dirsOf s shape.length)) with hcore
  have hvali : ∀ i, i < shape.prod →
      0 ≤ core.1.getD i 0 ∧ core.1.getD i 0 ≤ (core.2 : Int) := by
    intro i hin
    by_cases hia : isActive x i
    · obtain ⟨idx, _, hout⟩ := hact i hin hia
      rw [hout]
      have := idx.isLt
      constructor
      · positivity
      · rw [hcnt]
        omega
    · rw [hinact i hin hia]
      constructor
      · exact le_refl 0
      · exact Int.natCast_nonneg _
  refine ⟨?_, ⟨?_, ?_⟩, ?_⟩
  · intro v hv
    obtain ⟨i, hilt, hval⟩ := List.getElem_of_mem hv
    rw [hlen] at hilt
    have := hvali i hilt
    rw [getD_eq_getElem _ _ (by rw [hlen]; exact hilt)] at this
    rw [← hval]
    exact this
  · intro h0
    obtain ⟨i, hilt, hval⟩ := List.getElem_of_mem h0
    rw [hlen] at hilt
    refine ⟨i, hilt, ?_⟩
    intro hia
    obtain ⟨idx, _, hout⟩ := hact i hilt hia
    rw [getD_eq_getElem _ _ (by rw [hlen]; exact hilt), hval] at hout
    omega
  · rintro ⟨i, hilt, hia⟩
    have h0 := hinact i hilt hia
    rw [getD_eq_getElem _ _ (by rw [hlen]; exact hilt)] at h0
    rw [← h0]
    exact List.getElem_mem _
  · intro l hl1 hl2
    rw [hcnt] at hl2
    have hidxlt : l - 1 < (rootsList x (connectPhase shape (initY x)
        (seqSchedule shape.prod (dirsOf s shape.length))) shape.prod).length := by
      omega
    set R := rootsList x (connectPhase shape (initY x)
        (seqSchedule shape.prod (dirsOf s shape.length))) shape.prod with hR
    have hmem : R.get ⟨l - 1, hidxlt⟩ ∈ R := List.get_mem R (l - 1) hidxlt
    obtain ⟨hrlt, hract, hrroot⟩ := mem_rootsList_iff.1 hmem
    obtain ⟨idx, hget, hout⟩ := hact _ hrlt hract
    have hidx : idx = ⟨l - 1, hidxlt⟩ := by
      apply sorted_get_inj (rootsList_sorted x _ shape.prod)
      rw [hget, hrroot]
    have : core.1.getD (R.get ⟨l - 1, hidxlt⟩) 0 = ((l : Nat) : Int) := by
      rw [hout, hidx]
      simp only [Fin.val_mk]
      omega
    rw [← this, getD_eq_getElem _ _ (by rw [hlen]; exact hrlt)]
    exact List.getElem_mem _

/-- Witness for C5 at the 1-D scenario field. -/
theorem label_density_witness :
    ((0 : Int) ∈ (labelSeq [1, 0, 1, 1, 0, 1] [6] [true, true, true]).1
      ↔ ∃ i, i < ([6] : List Nat).prod ∧ ¬ isActive [1, 0, 1, 1, 0, 1] i)
    ∧ ((3 : Nat) : Int) ∈ (labelSeq [1, 0, 1, 1, 0, 1] [6]
        [true, true, true]).1 :=
  ⟨(label_density [1, 0, 1, 1, 0, 1] [6] [true, true, true] (by decide)).2.1,
   (label_density [1, 0, 1, 1, 0, 1] [6] [true, true, true]
      (by decide)).2.2 3 (by decide) (by decide)⟩

end CupyLabel

namespace CupyLabel

theorem getD_eq_getElem_nat (L : List Nat) (i : Nat) (h : i < L.length) :
    L.getD i 0 = L[i] := by
  rw [List.getD_eq_getElem?_getD, List.getElem?_eq_getElem h]
  rfl

/-- The final root of every active cell is the same for any two covering
schedules of the connect phase. -/
theorem connectPhase_schedule_indep {x : List Int} {shape : List Nat}
    {dirs : List (List Int)} {n : Nat} {es1 es2 : List (Nat × List Int)}
    (h1 : covers n dirs es1) (h2 : covers n dirs es2)
    (hn : ∀ i, isActive x i → i < n) {y0 : Nat → Int}
    (hInv : Inv x shape dirs y0) {i : Nat} (hi : isActive x i) :
    rootOf (connectPhase shape y0 es1) i
      = rootOf (connectPhase shape y0 es2) i := by
  have hI1 := connectPhase_inv es1 y0 hInv h1.1
  have hI2 := connectPhase_inv es2 y0 hInv h2.1
  obtain ⟨hr1_act, _, _, hr1_conn⟩ := rootOf_spec hI1 hi
  obtain ⟨hr2_act, _, _, hr2_conn⟩ := rootOf_spec hI2 hi
  have e12 : rootOf (connectPhase shape y0 es2) i
      = rootOf (connectPhase shape y0 es2)
          (rootOf (connectPhase shape y0 es1) i) :=
    sameRoot_of_conn h2 hn hInv hr1_conn
  have e21 : rootOf (connectPhase shape y0 es1) i
      = rootOf (connectPhase shape y0 es1)
          (rootOf (connectPhase shape y0 es2) i) :=
    sameRoot_of_conn h1 hn hInv hr2_conn
  have b2 := (rootOf_spec hI2 hr1_act).2.2.1
  have b1 := (rootOf_spec hI1 hr2_act).2.2.1
  omega

/-- C9: for a fixed field and structuring element, any two admissible
covering schedules of the connect phase — arbitrary permutations and
repetitions of the atomic (cell, offset) union events — produce bit-identical
output arrays and identical feature counts. -/
theorem scheduling_independence (x : List Int) (shape : List Nat)
    (s : List Bool) (es1 es2 : List (Nat × List Int))
    (hx : x.length = shape.prod)
    (h1 : covers shape.prod (dirsOf s shape.length) es1)
    (h2 : covers shape.prod (dirsOf s shape.length) es2) :
    labelCore x shape es1 = labelCore x shape es2 := by
  have hn : ∀ i, isActive x i → i < shape.prod := by
    intro i hi
    have := isActive_lt hi
    omega
  have hroots : ∀ i, isActive x i →
      rootOf (connectPhase shape (initY x) es1) i
        = rootOf (connectPhase shape (initY x) es2) i :=
    fun i hi => connectPhase_schedule_indep h1 h2 hn (Inv_init x shape _) hi
  have hR : rootsList x (connectPhase shape (initY x) es1) shape.prod
      = rootsList x (connectPhase shape (initY x) es2) shape.prod := by
    unfold rootsList
    apply List.filter_congr
    intro i _
    by_cases hact : isActive x i
    · rw [hroots i hact]
    · simp [hact]
  obtain ⟨hlen1, hcnt1, hinact1, hact1⟩ :=
    labelCore_spec x shape (dirsOf s shape.length) es1 h1.1
  obtain ⟨hlen2, hcnt2, hinact2, hact2⟩ :=
    labelCore_spec x shape (dirsOf s shape.length) es2 h2.1
  have hcnt : (labelCore x shape es1).2 = (labelCore x shape es2).2 := by
    rw [hcnt1, hcnt2, hR]
  have hout : (labelCore x shape es1).1 = (labelCore x shape es2).1 := by
    apply List.ext_getElem (by rw [hlen1, hlen2])
    intro i hi1 hi2
    have hin : i < shape.prod := by rw [hlen1] at hi1; exact hi1
    rw [← getD_eq_getElem _ _ hi1, ← getD_eq_getElem _ _ hi2]
    by_cases hact : isActive x i
    · obtain ⟨idx1, hget1, hout1⟩ := hact1 i hin hact
      obtain ⟨idx2, hget2, hout2⟩ := hact2 i hin hact
      rw [hout1, hout2]
      have hb1 : (idx1 : Nat)
          < (rootsList x (connectPhase shape (initY x) es1) shape.prod).length :=
        idx1.isLt
      have hb2 : (idx2 : Nat)
          < (rootsList x (connectPhase shape (initY x) es1) shape.prod).length := by
        rw [hR]
        exact idx2.isLt
      have hv1 : (rootsList x (connectPhase shape (initY x) es1)
            shape.prod).getD (idx1 : Nat) 0
          = rootOf (connectPhase shape (initY x) es1) i := by
        rw [getD_eq_getElem_nat _ _ hb1, ← hget1]
        rfl
      have hv2 : (rootsList x (connectPhase shape (initY x) es1)
            shape.prod).getD (idx2 : Nat) 0
          = rootOf (connectPhase shape (initY x) es1) i := by
        have hcongr := congrArg (fun L : List Nat => L.getD (idx2 : Nat) 0) hR
        simp only at hcongr
        rw [hcongr, getD_eq_getElem_nat _ _ idx2.isLt, hroots i hact,
          ← hget2]
        rfl
      have : (idx1 : Nat) = (idx2 : Nat) := by
        have hsorted := rootsList_sorted x
          (connectPhase shape (initY x) es1) shape.prod
        have h12 := hv1.trans hv2.symm
        rw [getD_eq_getElem_nat _ _ hb1, getD_eq_getElem_nat _ _ hb2] at h12
        have := sorted_get_inj hsorted
          (a := ⟨(idx1 : Nat), hb1⟩) (b := ⟨(idx2 : Nat), hb2⟩) h12
        exact Fin.val_eq_of_eq this
      rw [this]
    · rw [hinact1 i hin hact, hinact2 i hin hact]
  calc labelCore x shape es1
      = ((labelCore x shape es1).1, (labelCore x shape es1).2) := rfl
    _ = ((labelCore x shape es2).1, (labelCore x shape es2).2) := by
        rw [hout, hcnt]
    _ = labelCore x shape es2 := rfl

/-- Witness for C9: the sequential schedule versus its reversal with a
repeated event, on the field `[1,1,1]`. -/
theorem scheduling_independence_witness :
    labelCore [1, 1, 1] [3]
        (seqSchedule 3 (dirsOf [true, true, true] 1))
      = labelCore [1, 1, 1] [3]
        ((seqSchedule 3 (dirsOf [true, true, true] 1)).reverse
          ++ [(1, [-1])]) :=
  scheduling_independence [1, 1, 1] [3] [true, true, true] _ _ (by decide)
    (by decide) (by decide)

end CupyLabel

namespace CupyLabel

/-- C3: the predicate "y[i] = -1 or 0 ≤ y[i] ≤ i" holds after `_kernel_init`
and is preserved by every connect event; every committed union attaches the
root with the larger index under the root with the smaller index; and under
the full substrate invariant every find loop terminates at a self-rooted
fixed point no larger than its start. -/
theorem union_tiebreak_invariant (x : List Int) (shape : List Nat) :
    SimpleInv (initY x)
    ∧ (∀ (y : Nat → Int) (e : Nat × List Int),
        SimpleInv y → SimpleInv (connectEvent shape y e))
    ∧ (∀ (y : Nat → Int) (a b : Nat),
        unionStep y a b = y
        ∨ (min (rootOf y a) (rootOf y b) < max (rootOf y a) (rootOf y b)
           ∧ unionStep y a b
              = upd y (max (rootOf y a) (rootOf y b))
                  ((min (rootOf y a) (rootOf y b) : Nat) : Int)))
    ∧ (∀ (dirs : List (List Int)) (y : Nat → Int), Inv x shape dirs y →
        ∀ j, isActive x j →
          y (rootOf y j) = ((rootOf y j : Nat) : Int) ∧ rootOf y j ≤ j) := by
  have hsimple_union : ∀ (y : Nat → Int) (a b : Nat),
      SimpleInv y → SimpleInv (unionStep y a b) := by
    intro y a b h
    simp only [unionStep]
    by_cases h1 : rootOf y a = rootOf y b
    · rw [if_pos h1]
      exact h
    · rw [if_neg h1]
      by_cases h2 : rootOf y a < rootOf y b
      · rw [if_pos h2]
        intro j
        by_cases hj : j = rootOf y b
        · subst hj
          right
          rw [upd_eq_self]
          constructor
          · exact Int.natCast_nonneg _
          · exact_mod_cast le_of_lt h2
        · rw [upd_ne _ _ _ hj]
          exact h j
      · rw [if_neg h2]
        intro j
        by_cases hj : j = rootOf y a
        · subst hj
          right
          rw [upd_eq_self]
          constructor
          · exact Int.natCast_nonneg _
          · exact_mod_cast (by omega : rootOf y b ≤ rootOf y a)
        · rw [upd_ne _ _ _ hj]
          exact h j
  refine ⟨?_, ?_, ?_, ?_⟩
  · intro i
    unfold initY
    by_cases hz : x.getD i 0 = 0
    · rw [if_pos hz]
      left
      rfl
    · rw [if_neg hz]
      right
      exact ⟨Int.natCast_nonneg i, le_refl _⟩
  · intro y e h
    unfold connectEvent
    by_cases h1 : y e.1 < 0
    · rw [if_pos h1]
      exact h
    · rw [if_neg h1]
      cases neighbor shape e.2 e.1 with
      | none => exact h
      | some k =>
          show SimpleInv (if y k < 0 then y else unionStep y e.1 k)
          by_cases h2 : y k < 0
          · rw [if_pos h2]
            exact h
          · rw [if_neg h2]
            exact hsimple_union y e.1 k h
  · intro y a b
    simp only [unionStep]
    by_cases h1 : rootOf y a = rootOf y b
    · rw [if_pos h1]
      left
      rfl
    · right
      rw [if_neg h1]
      by_cases h2 : rootOf y a < rootOf y b
      · rw [if_pos h2, Nat.max_eq_right (le_of_lt h2),
          Nat.min_eq_left (le_of_lt h2)]
        exact ⟨h2, rfl⟩
      · have h3 : rootOf y b < rootOf y a := by omega
        rw [if_neg h2, Nat.max_eq_left (le_of_lt h3),
          Nat.min_eq_right (le_of_lt h3)]
        exact ⟨h3, rfl⟩
  · intro dirs y hInv j hj
    exact ⟨(rootOf_spec hInv hj).2.1, (rootOf_spec hInv hj).2.2.1⟩

/-- Witness for C3 on the field `[1,1]`. -/
theorem union_tiebreak_invariant_witness :
    SimpleInv (initY [1, 1])
    ∧ SimpleInv (connectEvent [2] (initY [1, 1]) (1, [-1])) :=
  ⟨(union_tiebreak_invariant [1, 1] [2]).1,
   (union_tiebreak_invariant [1, 1] [2]).2.1 (initY [1, 1]) (1, [-1])
     (union_tiebreak_invariant [1, 1] [2]).1⟩

/-- C4: once every active entry holds a root present in the strictly sorted
distinct root list, `_kernel_finalize` (with the truncated `(lo+hi)/2`
binary search) writes one plus the position of that root for active cells
and 0 for inactive cells. -/
theorem finalize_compaction (y : Nat → Int) (L : List Int) (n cnt : Nat)
    (hsort : L.Pairwise (· < ·)) (hlen : L.length = cnt)
    (hpos : ∀ v ∈ L, 0 ≤ v) :
    ∀ i, i < n →
      (y i < 0 → (finalizePhase y L cnt n).getD i 0 = 0)
      ∧ (∀ idx : Fin L.length, L.get idx = y i →
          (finalizePhase y L cnt n).getD i 0 = ((idx : Nat) : Int) + 1) := by
  intro i hin
  constructor
  · intro hneg
    unfold finalizePhase
    rw [getD_map_range _ _ _ hin]
    unfold finalizeCell
    rw [if_pos hneg]
  · intro idx hidx
    unfold finalizePhase
    rw [getD_map_range _ _ _ hin]
    unfold finalizeCell
    have hyi : 0 ≤ y i := by
      rw [← hidx]
      exact hpos _ (List.get_mem L (idx : Nat) idx.isLt)
    rw [if_neg (by omega)]
    have hval : L[(idx : Nat)] = y i := by
      rw [← hidx]
      rfl
    rw [bsearch_finds L hsort (y i) cnt hlen (idx : Nat) idx.isLt hval]

/-- Witness for C4: the converged buffer of a 2-cell field whose only root
is cell 0. -/
theorem finalize_compaction_witness :
    (finalizePhase (fun j => if j = 0 then 0 else -1) [0] 1 2).getD 0 0 = 1
    ∧ (finalizePhase (fun j => if j = 0 then 0 else -1) [0] 1 2).getD 1 0
        = 0 := by
  constructor
  · have h := ((finalize_compaction (fun j => if j = 0 then 0 else -1) [0] 2 1
      (by decide) rfl (by decide)) 0 (by decide)).2 ⟨0, by decide⟩ (by decide)
    simpa using h
  · have h := ((finalize_compaction (fun j => if j = 0 then 0 else -1) [0] 2 1
      (by decide) rfl (by decide)) 1 (by decide)).1 (by decide)
    exact h

end CupyLabel

namespace CupyLabel

/-- C6: the validation contract of `label`, in source order: complex field
dtype raises the type error; structure rank mismatch raises the rank
error; a structure axis different from 3 or a caller-provided output of
the wrong shape raises the shape error; and when validation passes, a
result is produced — every error is raised before any labeling work, so an
error is never accompanied by a partial result. -/
theorem validation_errors (inp : LabelInput) :
    (inp.isComplex = true → labelTop inp = .error .typeMismatch)
    ∧ (inp.isComplex = false →
        (inp.struct?.getD (genStructure inp.shape.length)).1.length
            ≠ inp.shape.length →
        labelTop inp = .error .rankMismatch)
    ∧ (inp.isComplex = false →
        (inp.struct?.getD (genStructure inp.shape.length)).1.length
            = inp.shape.length →
        ¬ ((inp.struct?.getD (genStructure inp.shape.length)).1.all
            (fun a => decide (a = 3)) = true) →
        labelTop inp = .error .shapeMismatch)
    ∧ (inp.isComplex = false →
        (inp.struct?.getD (genStructure inp.shape.length)).1.length
            = inp.shape.length →
        (inp.struct?.getD (genStructure inp.shape.length)).1.all
            (fun a => decide (a = 3)) = true →
        inp.outShape?.getD inp.shape ≠ inp.shape →
        labelTop inp = .error .shapeMismatch)
    ∧ (inp.isComplex = false →
        (inp.struct?.getD (genStructure inp.shape.length)).1.length
            = inp.shape.length →
        (inp.struct?.getD (genStructure inp.shape.length)).1.all
            (fun a => decide (a = 3)) = true →
        inp.outShape?.getD inp.shape = inp.shape →
        ∃ res, labelTop inp = .ok res) := by
  refine ⟨?_, ?_, ?_, ?_, ?_⟩
  · intro hc
    unfold labelTop
    rw [if_pos (by rw [hc])]
  · intro hc hrank
    unfold labelTop
    rw [if_neg (by rw [hc]; exact Bool.false_ne_true), if_pos hrank]
  · intro hc hrank haxes
    unfold labelTop
    rw [if_neg (by rw [hc]; exact Bool.false_ne_true),
      if_neg (by rw [hrank]; exact fun h => h rfl), if_pos haxes]
  · intro hc hrank haxes hout
    unfold labelTop
    rw [if_neg (by rw [hc]; exact Bool.false_ne_true),
      if_neg (by rw [hrank]; exact fun h => h rfl),
      if_neg (by rw [haxes]; exact fun h => h rfl), if_pos hout]
  · intro hc hrank haxes hout
    unfold labelTop
    rw [if_neg (by rw [hc]; exact Bool.false_ne_true),
      if_neg (by rw [hrank]; exact fun h => h rfl),
      if_neg (by rw [haxes]; exact fun h => h rfl),
      if_neg (by rw [hout]; exact fun h => h rfl)]
    by_cases hp : inp.shape.prod = 0
    · rw [if_pos hp]
      exact ⟨_, rfl⟩
    · rw [if_neg hp]
      by_cases hr : inp.shape.length = 0
      · rw [if_pos hr]
        exact ⟨_, rfl⟩
      · rw [if_neg hr]
        exact ⟨_, rfl⟩

/-- Witness for C6 at the complex-typed input. -/
theorem validation_errors_witness :
    labelTop ⟨true, [6], [1, 0, 1], none, none⟩ = .error .typeMismatch :=
  (validation_errors ⟨true, [6], [1, 0, 1], none, none⟩).1 rfl

/-- C10: validation never inspects the structuring element's values — any
caller-provided structure of matching rank with every axis equal to 3
passes validation (together with a well-shaped output), even when it is
not centrosymmetric. -/
theorem no_centrosymmetry_check (inp : LabelInput)
    (st : List Nat × List Bool) (hst : inp.struct? = some st)
    (hc : inp.isComplex = false)
    (hrank : st.1.length = inp.shape.length)
    (haxes : ∀ a ∈ st.1, a = 3)
    (hout : inp.outShape?.getD inp.shape = inp.shape) :
    ∃ res, labelTop inp = .ok res := by
  have hgetD : inp.struct?.getD (genStructure inp.shape.length) = st := by
    rw [hst]
    rfl
  refine (validation_errors inp).2.2.2.2 hc ?_ ?_ hout
  · rw [hgetD]
    exact hrank
  · rw [hgetD]
    rw [List.all_eq_true]
    intro a ha
    rw [decide_eq_true_eq]
    exact haxes a ha

/-- Witness for C10: a validated but non-centrosymmetric structuring
element is accepted. -/
theorem no_centrosymmetry_check_witness :
    ∃ res, labelTop ⟨false, [2], [1, 1], some ([3], [true, true, false]),
        none⟩ = .ok res :=
  no_centrosymmetry_check _ ([3], [true, true, false]) rfl rfl rfl
    (by decide) rfl

end CupyLabel

namespace CupyLabel

theorem range_filter_eq_single {c n : Nat} (hc : c < n) (p : Nat → Bool)
    (hp : ∀ i, i < n → (p i = true ↔ i = c)) :
    (List.range n).filter p = [c] := by
  induction n with
  | zero => omega
  | succ m ih =>
      rw [List.range_succ, List.filter_append]
      by_cases hcm : c = m
      · have hnil : (List.range m).filter p = [] := by
          rw [List.filter_eq_nil_iff]
          intro a ha hpa
          rw [List.mem_range] at ha
          rw [hp a (by omega)] at hpa
          omega
        have hone : List.filter p [m] = [m] := by
          have : p m = true := (hp m (by omega)).2 hcm.symm
          simp [List.filter, this]
        rw [hnil, hone, hcm]
        rfl
      · have hclt : c < m := by omega
        have hzero : List.filter p [m] = [] := by
          have : p m = false := by
            rcases Bool.eq_false_or_eq_true (p m) with h | h
            · rw [hp m (by omega)] at h
              omega
            · exact h
          simp [List.filter, this]
        rw [hzero, List.append_nil]
        exact ih hclt (fun i hi => hp i (by omega))

/-- With at most one active cell the connect phase leaves the initial
buffer unchanged: every union is a self-union. -/
theorem connectPhase_single {x : List Int} {shape : List Nat} {c : Nat}
    (huniq : ∀ i, isActive x i → i = c) :
    ∀ es, connectPhase shape (initY x) es = initY x := by
  intro es
  induction es with
  | nil => rfl
  | cons e tl ih =>
      rw [connectPhase_cons]
      have hact_of : ∀ j, ¬ initY x j < 0 → isActive x j := by
        intro j hj
        unfold initY at hj
        by_cases hz : x.getD j 0 = 0
        · rw [if_pos hz] at hj
          exact absurd (by norm_num) hj
        · exact hz
      have hev : connectEvent shape (initY x) e = initY x := by
        unfold connectEvent
        by_cases h1 : initY x e.1 < 0
        · rw [if_pos h1]
        · rw [if_neg h1]
          cases hnb : neighbor shape e.2 e.1 with
          | none => rfl
          | some k =>
              show (if initY x k < 0 then initY x
                else unionStep (initY x) e.1 k) = initY x
              by_cases h2 : initY x k < 0
              · rw [if_pos h2]
              · rw [if_neg h2]
                rw [huniq e.1 (hact_of e.1 h1), huniq k (hact_of k h2)]
                simp only [unionStep]
                simp
      rw [hev, ih]

/-- C7: boundary behaviour. An all-zero field labels to all zeros with
feature count 0; a field with exactly one active cell yields feature count
1 with that cell labeled 1 and all others 0; a size-0 array yields feature
count 0 and an empty output; a rank-0 field yields feature count 0 or 1
depending solely on whether the scalar is nonzero. -/
theorem boundary_cases :
    (∀ (x : List Int) (shape : List Nat) (s : List Bool),
      (∀ i, ¬ isActive x i) →
      labelSeq x shape s = (List.replicate shape.prod 0, 0))
    ∧ (∀ (x : List Int) (shape : List Nat) (s : List Bool) (c : Nat),
        c < shape.prod → isActive x c → (∀ i, isActive x i → i = c) →
        (labelSeq x shape s).2 = 1
        ∧ (labelSeq x shape s).1.getD c 0 = 1
        ∧ ∀ i, i < shape.prod → i ≠ c →
            (labelSeq x shape s).1.getD i 0 = 0)
    ∧ (∀ inp : LabelInput, inp.isComplex = false →
        (inp.struct?.getD (genStructure inp.shape.length)).1.length
            = inp.shape.length →
        (inp.struct?.getD (genStructure inp.shape.length)).1.all
            (fun a => decide (a = 3)) = true →
        inp.outShape?.getD inp.shape = inp.shape →
        inp.shape.prod = 0 → labelTop inp = .ok ([], 0))
    ∧ (∀ inp : LabelInput, inp.isComplex = false →
        (inp.struct?.getD (genStructure inp.shape.length)).1.length
            = inp.shape.length →
        (inp.struct?.getD (genStructure inp.shape.length)).1.all
            (fun a => decide (a = 3)) = true →
        inp.outShape?.getD inp.shape = inp.shape →
        inp.shape = [] →
        labelTop inp
          = .ok ([((if inp.data.getD 0 0 = 0 then 0 else 1 : Nat) : Int)],
              if inp.data.getD 0 0 = 0 then 0 else 1)) := by
  refine ⟨?_, ?_, ?_, ?_⟩
  · intro x shape s hall
    have hcov := seqSchedule_covers shape.prod (dirsOf s shape.length)
    obtain ⟨hlen, hcnt, hinact, _⟩ :=
      labelCore_spec x shape (dirsOf s shape.length)
        (seqSchedule shape.prod (dirsOf s shape.length)) hcov.1
    rw [labelSeq_def]
    have hRnil : rootsList x (connectPhase shape (initY x)
        (seqSchedule shape.prod (dirsOf s shape.length))) shape.prod = [] := by
      unfold rootsList
      rw [List.filter_eq_nil_iff]
      intro a _ hpa
      rw [decide_eq_true_eq] at hpa
      exact hall a hpa.1
    have hcz : (labelCore x shape
        (seqSchedule shape.prod (dirsOf s shape.length))).2 = 0 := by
      rw [hcnt, hRnil]
      rfl
    have hout : (labelCore x shape
        (seqSchedule shape.prod (dirsOf s shape.length))).1
        = List.replicate shape.prod 0 := by
      apply List.ext_getElem (by rw [hlen, List.length_replicate])
      intro i hi1 hi2
      have hin : i < shape.prod := by rw [hlen] at hi1; exact hi1
      rw [List.getElem_replicate, ← getD_eq_getElem _ _ hi1]
      exact hinact i hin (hall i)
    calc labelCore x shape (seqSchedule shape.prod (dirsOf s shape.length))
        = ((labelCore x shape
            (seqSchedule shape.prod (dirsOf s shape.length))).1,
           (labelCore x shape
            (seqSchedule shape.prod (dirsOf s shape.length))).2) := rfl
      _ = (List.replicate shape.prod 0, 0) := by rw [hout, hcz]
  · intro x shape s c hclt hcact huniq
    have hcov := seqSchedule_covers shape.prod (dirsOf s shape.length)
    obtain ⟨hlen, hcnt, hinact, hact⟩ :=
      labelCore_spec x shape (dirsOf s shape.length)
        (seqSchedule shape.prod (dirsOf s shape.length)) hcov.1
    have hy1 : connectPhase shape (initY x)
        (seqSchedule shape.prod (dirsOf s shape.length)) = initY x :=
      connectPhase_single huniq _
    have hrootc : rootOf (initY x) c = c :=
      rootOf_root (by unfold initY; rw [if_neg hcact])
    have hR : rootsList x (connectPhase shape (initY x)
        (seqSchedule shape.prod (dirsOf s shape.length))) shape.prod
        = [c] := by
      rw [hy1]
      unfold rootsList
      apply range_filter_eq_single hclt
      intro i hi
      rw [decide_eq_true_eq]
      constructor
      · rintro ⟨hia, _⟩
        exact huniq i hia
      · rintro rfl
        exact ⟨hcact, hrootc⟩
    rw [labelSeq_def]
    refine ⟨by rw [hcnt, hR]; rfl, ?_, ?_⟩
    · obtain ⟨idx, hget, hout⟩ := hact c hclt hcact
      rw [hout]
      have hlen1 : (rootsList x (connectPhase shape (initY x)
          (seqSchedule shape.prod (dirsOf s shape.length)))
            shape.prod).length = 1 := by
        rw [hR]
        rfl
      have : (idx : Nat) = 0 := by
        have := idx.isLt
        omega
      rw [this]
      rfl
    · intro i hilt hic
      have hia : ¬ isActive x i := fun hia => hic (huniq i hia)
      exact hinact i hilt hia
  · intro inp hc hrank haxes hout hp
    unfold labelTop
    rw [if_neg (by rw [hc]; exact Bool.false_ne_true),
      if_neg (by rw [hrank]; exact fun h => h rfl),
      if_neg (by rw [haxes]; exact fun h => h rfl),
      if_neg (by rw [hout]; exact fun h => h rfl), if_pos hp]
  · intro inp hc hrank haxes hout hshape
    unfold labelTop
    rw [if_neg (by rw [hc]; exact Bool.false_ne_true),
      if_neg (by rw [hrank]; exact fun h => h rfl),
      if_neg (by rw [haxes]; exact fun h => h rfl),
      if_neg (by rw [hout]; exact fun h => h rfl),
      if_neg (by rw [hshape]; norm_num),
      if_pos (by rw [hshape]; rfl)]

/-- Witness for C7: an all-zero field, a single-cell field, a size-0
input, and a rank-0 input. -/
theorem boundary_cases_witness :
    labelSeq [0, 0] [2] [true, true, true] = ([0, 0], 0)
    ∧ (labelSeq [0, 5, 0] [3] [true, true, true]).2 = 1
    ∧ (labelSeq [0, 5, 0] [3] [true, true, true]).1.getD 1 0 = 1
    ∧ labelTop ⟨false, [0, 3], [], none, none⟩ = .ok ([], 0)
    ∧ labelTop ⟨false, [], [7], none, none⟩ = .ok ([1], 1) := by
  refine ⟨?_, ?_, ?_, ?_, ?_⟩
  · refine boundary_cases.1 [0, 0] [2] [true, true, true] ?_
    intro i hi
    apply hi
    rcases i with _ | _ | i <;> rfl
  · refine (boundary_cases.2.1 [0, 5, 0] [3] [true, true, true] 1 (by decide)
      (by decide) ?_).1
    intro i hi
    rcases i with _ | _ | _ | i
    · exact absurd rfl hi
    · rfl
    · exact absurd rfl hi
    · exact absurd rfl hi
  · refine (boundary_cases.2.1 [0, 5, 0] [3] [true, true, true] 1 (by decide)
      (by decide) ?_).2.1
    intro i hi
    rcases i with _ | _ | _ | i
    · exact absurd rfl hi
    · rfl
    · exact absurd rfl hi
    · exact absurd rfl hi
  · exact boundary_cases.2.2.1 ⟨false, [0, 3], [], none, none⟩ rfl rfl
      (by decide) rfl rfl
  · have h := boundary_cases.2.2.2 ⟨false, [], [7], none, none⟩ rfl rfl
      (by decide) rfl rfl
    simpa using h

end CupyLabel
